import Mathlib

/-!
Shallow embedding of `labirinto.py` (maze-solver-from-image).

The program parses a picture of a rectangular maze into a grid of cells,
iteratively removes dead ends, and finally checks for cycles.  Machine
integers of the source are modelled as `Nat`/`Int`; the in-place mutation of
the `maze` list of lists of `Cell` objects is modelled by explicit state
passing on `List (List Cell)`; code paths that can raise a Python exception
are modelled with `Except`/`Option`.
-/

namespace MazeSolver

/-- Directional constants of the source (`'up'`, `'down'`, `'left'`, `'right'`). -/
inductive Dir where
  | up : Dir
  | down : Dir
  | left : Dir
  | right : Dir
deriving DecidableEq, Repr

/-- Embeds the class `Cell`: four directional flags plus the `special` flag.
Default field values mirror `Cell.__init__`. -/
structure Cell where
  up : Bool := true
  down : Bool := true
  left : Bool := true
  right : Bool := true
  special : Bool := false
deriving DecidableEq, Repr

/-- Embeds the property `Cell.exits`: Python sums the five booleans as ints. -/
def Cell.exits (c : Cell) : Nat :=
  c.up.toNat + c.down.toNat + c.left.toNat + c.right.toNat + c.special.toNat

/-- Dynamic attribute read `getattr(cell, dir)` for the four directions. -/
def Cell.flag (c : Cell) : Dir → Bool
  | Dir.up => c.up
  | Dir.down => c.down
  | Dir.left => c.left
  | Dir.right => c.right

/-- Dynamic attribute write `setattr(cell, dir, False)`. -/
def Cell.clearFlag (c : Cell) : Dir → Cell
  | Dir.up => { c with up := false }
  | Dir.down => { c with down := false }
  | Dir.left => { c with left := false }
  | Dir.right => { c with right := false }

/-- The maze: Python's list of lists of cells, addressed as `maze[y][x]`. -/
abbrev Maze := List (List Cell)

/-- An all-closed, non-special cell, used as the default of total lookups.
All indexing the source performs on a well-formed (rectangular) maze is
in range; out-of-range reads of the model return this inert cell. -/
def defaultCell : Cell :=
  { up := false, down := false, left := false, right := false, special := false }

/-- Reads `maze[y][x]`. -/
def getCell (maze : Maze) (x y : Nat) : Cell :=
  (maze.getD y []).getD x defaultCell

/-- Writes `maze[y][x] = c` (in-place mutation, modelled functionally). -/
def setCell (maze : Maze) (x y : Nat) (c : Cell) : Maze :=
  maze.set y ((maze.getD y []).set x c)

/-- Clearing a single directional flag of `maze[y][x]`, the only mutation
`cut_dead_ends` performs. -/
def clearCellFlag (maze : Maze) (x y : Nat) (d : Dir) : Maze :=
  setCell maze x y ((getCell maze x y).clearFlag d)

/-- Sum of `Cell.exits` over one row. -/
def rowExits (row : List Cell) : Nat :=
  (row.map Cell.exits).sum

/-- Sum of `Cell.exits` over the whole grid. -/
def totalExits (maze : Maze) : Nat :=
  (maze.map rowExits).sum

/-- An RGB triple, as produced by `img.convert('RGB')`. -/
abbrev RGB := Nat × Nat × Nat

def black : RGB := (0, 0, 0)

def white : RGB := (255, 255, 255)

/-- A decoded image: `img.size` plus the row-major `list(img.getdata())`. -/
structure Img where
  width : Nat
  height : Nat
  data : List RGB

/-- Embeds `img.getpixel((x, y))`; all reads the source performs are in
range, reads outside the data default to white. -/
def Img.getpixel (img : Img) (x y : Nat) : RGB :=
  img.data.getD (y * img.width + x) white

/-- Embeds `blacks_per_line[i]`: black pixels in `data[i*width:(i+1)*width]`. -/
def blacksPerLine (img : Img) (i : Nat) : Nat :=
  (((img.data.drop (i * img.width)).take img.width).filter
    (fun pix => pix = black)).length

/-- Embeds `blacks_per_col[i]`: black pixels in `data[i:i+height*width:width]`,
the stride-`width` slice, i.e. entries `i + j*width` for `j < height`. -/
def blacksPerCol (img : Img) (i : Nat) : Nat :=
  (((List.range img.height).map (fun j => img.data.getD (i + j * img.width) white)).filter
    (fun pix => pix = black)).length

/-- Embeds `find_walls`.  A line is a wall when its black count exceeds a
third of the opposite dimension; the source compares an int against the
float `width/3.0` (resp. `height/3.0`), which for the integer quantities
involved coincides with the exact comparison `3 * amount > width`. -/
def find_walls (img : Img) : List Nat × List Nat :=
  let wall_rows := (List.range img.height).filter
    (fun i => img.width < 3 * blacksPerLine img i)
  let wall_cols := (List.range img.width).filter
    (fun i => img.height < 3 * blacksPerCol img i)
  (wall_rows, wall_cols)

/-- Coordinate-wise count of pure-black pixels in row `i`, used to state
properties of `find_walls` (which computes the same count by list slicing). -/
def rowBlackCount (img : Img) (i : Nat) : Nat :=
  ((List.range img.width).filter (fun x => img.getpixel x i = black)).length

/-- Coordinate-wise count of pure-black pixels in column `i`. -/
def colBlackCount (img : Img) (i : Nat) : Nat :=
  ((List.range img.height).filter (fun y => img.getpixel i y = black)).length

/-- One iteration of the per-cell body of `build_maze_from_image`: the four
border midpoints clear the corresponding flags when black (each conditional
touches its own field, so the sequence of four if-statements is recorded
field-wise), and a center pixel that is neither black nor white sets
`special`. -/
def sampleCell (img : Img) (x xn y yn : Nat) (c : Cell) : Cell :=
  { up := if img.getpixel ((x + xn) / 2) y = black then false else c.up
    down := if img.getpixel ((x + xn) / 2) yn = black then false else c.down
    left := if img.getpixel x ((y + yn) / 2) = black then false else c.left
    right := if img.getpixel xn ((y + yn) / 2) = black then false else c.right
    special := if img.getpixel ((x + xn) / 2) ((y + yn) / 2) ∉ [black, white]
      then true else c.special }

/-- Embeds `build_maze_from_image`.  `width`/`height` are `len - 1` (Python
may produce `-1` here; `range` of a non-positive number is empty exactly as
`Nat` truncated subtraction makes `List.range 0` empty, so the constructed
grid agrees with the source).  The nested loops run `i` over columns and
`j` over rows, mutating `maze[j][i]`. -/
def build_maze_from_image (img : Img) : Maze :=
  let wall_rows := (find_walls img).1
  let wall_cols := (find_walls img).2
  let width := wall_cols.length - 1
  let height := wall_rows.length - 1
  let maze0 : Maze := List.replicate height (List.replicate width {})
  (List.range width).foldl (fun maze i =>
    (List.range height).foldl (fun maze j =>
      let x := wall_cols.getD i 0
      let xn := wall_cols.getD (i + 1) 0
      let y := wall_rows.getD j 0
      let yn := wall_rows.getD (j + 1) 0
      setCell maze i j (sampleCell img x xn y yn (getCell maze i j))) maze) maze0

/-- The `directions` table of `cut_dead_ends`: attribute, reverse attribute,
x delta, y delta. -/
def directions : List (Dir × Dir × Int × Int) :=
  [(Dir.up, Dir.down, 0, -1),
   (Dir.down, Dir.up, 0, 1),
   (Dir.left, Dir.right, -1, 0),
   (Dir.right, Dir.left, 1, 0)]

/-- The body of the inner `for dir, revdir, xdelta, ydelta in directions`
loop of `cut_dead_ends`, acting on the maze together with the list of
dead ends collected for the next round. -/
def processDir (w h x y : Nat) (st : Maze × List (Nat × Nat))
    (dd : Dir × Dir × Int × Int) : Maze × List (Nat × Nat) :=
  match dd with
  | (d, revd, xdelta, ydelta) =>
    if (getCell st.1 x y).flag d then
      let maze1 := clearCellFlag st.1 x y d
      let x2 : Int := (x : Int) + xdelta
      let y2 : Int := (y : Int) + ydelta
      if 0 ≤ x2 ∧ x2 < (w : Int) ∧ 0 ≤ y2 ∧ y2 < (h : Int) then
        let maze2 := clearCellFlag maze1 x2.toNat y2.toNat revd
        if (getCell maze2 x2.toNat y2.toNat).exits = 1 then
          (maze2, st.2 ++ [(x2.toNat, y2.toNat)])
        else
          (maze2, st.2)
      else
        (maze1, st.2)
    else
      st

/-- Processing of a single queued dead end `(x, y)`: the four directions in
order. -/
def processDeadEnd (w h : Nat) (st : Maze × List (Nat × Nat))
    (p : Nat × Nat) : Maze × List (Nat × Nat) :=
  directions.foldl (processDir w h p.1 p.2) st

/-- One round of the `while dead_ends:` loop: all queued dead ends are
processed, collecting the dead ends of the next round starting from `[]`. -/
def elimRound (w h : Nat) (st : Maze × List (Nat × Nat)) : Maze × List (Nat × Nat) :=
  st.2.foldl (processDeadEnd w h) (st.1, [])

/-- One guarded step of the loop: a step with an empty queue does nothing
(the `while` has exited). -/
def elimStep (w h : Nat) (st : Maze × List (Nat × Nat)) : Maze × List (Nat × Nat) :=
  if st.2 = [] then st else elimRound w h st

/-- The initial scan of `cut_dead_ends`: `i` over columns, `j` over rows,
collecting coordinates of cells with exactly one exit, in loop order. -/
def initialDeadEnds (w h : Nat) (maze : Maze) : List (Nat × Nat) :=
  (List.range w).flatMap (fun i =>
    ((List.range h).filter (fun j => (getCell maze i j).exits = 1)).map (fun j => (i, j)))

/-- Runtime errors of the source that the model makes explicit. -/
inductive PyError where
  | indexError : PyError
  | typeError : PyError
deriving DecidableEq, Repr

/-- One guarded loop step of `cut_dead_ends` threading the
`num_dead_ends_over_time` list, which is appended to (with the integer
`len(dead_ends)`) at the top of each executed round when `verboseness == 1`. -/
def elimStepV (w h : Nat) (verboseness : Int)
    (st : Maze × List (Nat × Nat) × List Nat) : Maze × List (Nat × Nat) × List Nat :=
  if st.2.1 = [] then st
  else
    let counts := if verboseness = 1 then st.2.2 ++ [st.2.1.length] else st.2.2
    let r := elimRound w h (st.1, st.2.1)
    (r.1, r.2, counts)

/-- Embeds `cut_dead_ends(maze, verboseness)`.  On an empty maze,
`len(maze[0])` raises `IndexError`.  The loop runs until the queue is
empty; iterating the guarded step `totalExits maze + 1` times reaches that
fixed point (proved below as the termination theorem), and extra guarded
steps are the identity.  After the loop, when `verboseness == 1` and rounds
were recorded, the source evaluates `', '.join(num_dead_ends_over_time)` on
a list of ints, which raises `TypeError`.  The returned value is the final
maze (the source mutates it in place). -/
def cut_dead_ends (maze : Maze) (verboseness : Int) : Except PyError Maze :=
  match maze with
  | [] => Except.error PyError.indexError
  | _ :: _ =>
    let height := maze.length
    let width := (maze.getD 0 []).length
    let st := (elimStepV width height verboseness)^[totalExits maze + 1]
      (maze, initialDeadEnds width height maze, ([] : List Nat))
    if verboseness = 1 ∧ st.2.2 ≠ [] then Except.error PyError.typeError
    else Except.ok st.1

/-- Embeds the cycle test of `main`:
`any(cell.exits != 0 for cell in line for line in maze)`.
The name `line` in the first clause is the variable leaked from the
preceding special-clearing `for line in maze:` loop, i.e. the last row of
the maze; the first generator clause iterates over it (eagerly bound), and
the second clause rebinds `line` over the whole maze without affecting the
first iterator.  On an empty maze the leaked name is unbound (`NameError`),
modelled as `none`. -/
def mainCycleCheck (maze : Maze) : Option Bool :=
  match maze.getLast? with
  | none => none
  | some line => some (line.any (fun cell => maze.any (fun _l => cell.exits != 0)))

/-- The neighbouring grid position one step in a direction, `none` when the
step leaves `Nat × Nat` (above the top row or left of the first column). -/
def posToward (p : Nat × Nat) : Dir → Option (Nat × Nat)
  | Dir.up => if p.2 = 0 then none else some (p.1, p.2 - 1)
  | Dir.down => some (p.1, p.2 + 1)
  | Dir.left => if p.1 = 0 then none else some (p.1 - 1, p.2)
  | Dir.right => some (p.1 + 1, p.2)

/-- The mirrored direction, as in the `revdir` column of `directions`. -/
def oppositeDir : Dir → Dir
  | Dir.up => Dir.down
  | Dir.down => Dir.up
  | Dir.left => Dir.right
  | Dir.right => Dir.left

/-- Two grid-adjacent cells joined by mutually-true directional flags: the
edges of the maze's connection graph. -/
def Connected (m : Maze) (p q : Nat × Nat) : Prop :=
  ∃ d : Dir, posToward p d = some q ∧
    (getCell m p.1 p.2).flag d = true ∧
    (getCell m q.1 q.2).flag (oppositeDir d) = true

/-- All edges of a cyclic list of positions are present in the maze's
connection graph. -/
def EdgesAlive (m : Maze) (l : List (Nat × Nat)) : Prop :=
  ∀ i, i < l.length →
    Connected m (l.getD i (0, 0)) (l.getD ((i + 1) % l.length) (0, 0))

/-- A simple cycle of the connection graph: at least three pairwise distinct
positions, cyclically consecutive ones connected. -/
def IsCycle (m : Maze) (l : List (Nat × Nat)) : Prop :=
  l.Nodup ∧ 3 ≤ l.length ∧ EdgesAlive m l

/-- The connection graph contains a cycle. -/
def HasCycle (m : Maze) : Prop :=
  ∃ l : List (Nat × Nat), IsCycle m l

/-- A rectangular `h × w` grid (every maze built by `build_maze_from_image`
is of this shape). -/
def Rectangular (m : Maze) (w h : Nat) : Prop :=
  m.length = h ∧ ∀ y, y < h → (m.getD y []).length = w

/-- Every cell's `special` flag is false. -/
def SpecialsOff (m : Maze) (w h : Nat) : Prop :=
  ∀ x, x < w → ∀ y, y < h → (getCell m x y).special = false

/-- Adjacency symmetry: grid-adjacent cells agree on their shared border. -/
def SymAdj (m : Maze) (w h : Nat) : Prop :=
  ∀ x, x < w → ∀ y, y < h →
    (y + 1 < h → (getCell m x y).down = (getCell m x (y + 1)).up) ∧
    (x + 1 < w → (getCell m x y).right = (getCell m (x + 1) y).left)

/-- Flags pointing out of the grid are false. -/
def BoundaryClosed (m : Maze) (w h : Nat) : Prop :=
  ∀ x, x < w → ∀ y, y < h →
    (y = 0 → (getCell m x y).up = false) ∧
    (y + 1 = h → (getCell m x y).down = false) ∧
    (x = 0 → (getCell m x y).left = false) ∧
    (x + 1 = w → (getCell m x y).right = false)

/-- The elimination only ever clears flags, leaves `special` untouched, and
preserves the grid's shape; this order relates the later maze to the
earlier one. -/
def Decreasing (m' m : Maze) : Prop :=
  (∀ x y d, (getCell m' x y).flag d = true → (getCell m x y).flag d = true) ∧
  (∀ x y, (getCell m' x y).special = (getCell m x y).special) ∧
  m'.length = m.length ∧
  (∀ y, (m'.getD y []).length = (m.getD y []).length) ∧
  totalExits m' ≤ totalExits m

/-- A 1-by-1 maze whose single cell opens up and down: both openings point
out of the grid, so the connection graph has no edges at all. -/
def mOne : Maze :=
  [[⟨true, true, false, false, false⟩]]

/-- A 2-by-2 maze with asymmetric flags: `(0,0)` opens down and right,
`(1,0)` is closed, `(0,1)` opens up and right, `(1,1)` opens up and left.
The mutual connection graph is the path `(0,0) - (0,1) - (1,1)`. -/
def mTwo : Maze :=
  [[⟨false, true, false, true, false⟩, ⟨false, false, false, false, false⟩],
   [⟨true, false, false, true, false⟩, ⟨true, false, true, false, false⟩]]

instance decidableExistsDir (P : Dir → Prop) [DecidablePred P] :
    Decidable (∃ d : Dir, P d) :=
  decidable_of_iff (P Dir.up ∨ P Dir.down ∨ P Dir.left ∨ P Dir.right)
    ⟨fun hin => hin.elim (fun hd => ⟨_, hd⟩) (fun hin => hin.elim (fun hd => ⟨_, hd⟩)
        (fun hin => hin.elim (fun hd => ⟨_, hd⟩) (fun hd => ⟨_, hd⟩))),
     fun hex => by
      obtain ⟨d, hd⟩ := hex
      cases d
      · exact Or.inl hd
      · exact Or.inr (Or.inl hd)
      · exact Or.inr (Or.inr (Or.inl hd))
      · exact Or.inr (Or.inr (Or.inr hd))⟩

/-! ### Basic lemmas about cells and grid primitives -/

theorem Cell.flag_clearFlag (c : Cell) (d e : Dir) :
    (c.clearFlag d).flag e = if e = d then false else c.flag e := by
  cases d <;> cases e <;> simp [Cell.clearFlag, Cell.flag]

theorem Cell.special_clearFlag (c : Cell) (d : Dir) :
    (c.clearFlag d).special = c.special := by
  cases d <;> rfl

theorem Cell.exits_clearFlag (c : Cell) (d : Dir) :
    (c.clearFlag d).exits + (c.flag d).toNat = c.exits := by
  cases d <;> simp [Cell.clearFlag, Cell.flag, Cell.exits] <;> omega

theorem Cell.clearFlag_defaultCell (d : Dir) : defaultCell.clearFlag d = defaultCell := by
  cases d <;> rfl

theorem Cell.flag_defaultCell (d : Dir) : defaultCell.flag d = false := by
  cases d <;> rfl

theorem Cell.exits_defaultCell : defaultCell.exits = 0 := by rfl

theorem Cell.exits_le_of_le (c' c : Cell) (hf : ∀ d, c'.flag d = true → c.flag d = true)
    (hs : c'.special = c.special) : c'.exits ≤ c.exits := by
  have hu := hf Dir.up
  have hd := hf Dir.down
  have hl := hf Dir.left
  have hr := hf Dir.right
  simp only [Cell.flag] at hu hd hl hr
  simp only [Cell.exits, hs]
  cases hcu : c'.up <;> cases hcd : c'.down <;> cases hcl : c'.left <;>
    cases hcr : c'.right <;> simp_all <;> omega

theorem Cell.exits_eq_zero (c : Cell) (hs : c.special = false) (h : c.exits = 0) :
    ∀ d, c.flag d = false := by
  intro d
  simp only [Cell.exits, hs] at h
  cases d <;> simp only [Cell.flag] <;>
    cases hcu : c.up <;> cases hcd : c.down <;> cases hcl : c.left <;>
    cases hcr : c.right <;> simp_all

theorem Cell.two_le_exits (c : Cell) (d e : Dir) (hne : d ≠ e)
    (hd : c.flag d = true) (he : c.flag e = true) : 2 ≤ c.exits := by
  simp only [Cell.exits]
  cases d <;> cases e <;> simp_all [Cell.flag] <;> omega

/-! ### List lemmas for `getD` and `set` -/

theorem getD_oob {α : Type _} (l : List α) (i : Nat) (d : α) (h : l.length ≤ i) :
    l.getD i d = d := by
  induction l generalizing i with
  | nil => rfl
  | cons a t ih =>
    cases i with
    | zero => simp at h
    | succ j => simpa using ih j (by simpa using h)

theorem getD_set_self {α : Type _} (l : List α) (i : Nat) (a d : α) :
    (l.set i a).getD i d = if i < l.length then a else d := by
  induction l generalizing i with
  | nil => simp [List.set]
  | cons b t ih =>
    cases i with
    | zero => simp
    | succ j => simpa using ih j

theorem getD_set_ne {α : Type _} (l : List α) (i j : Nat) (a d : α) (h : i ≠ j) :
    (l.set i a).getD j d = l.getD j d := by
  induction l generalizing i j with
  | nil => simp [List.set]
  | cons b t ih =>
    cases i with
    | zero =>
      cases j with
      | zero => exact absurd rfl h
      | succ k => simp
    | succ i' =>
      cases j with
      | zero => simp
      | succ k => simpa using ih i' k (by omega)

theorem set_oob {α : Type _} (l : List α) (i : Nat) (a : α) (h : l.length ≤ i) :
    l.set i a = l := by
  induction l generalizing i with
  | nil => rfl
  | cons b t ih =>
    cases i with
    | zero => simp at h
    | succ j => simpa using ih j (by simpa using h)

theorem sum_map_set {α : Type _} (f : α → Nat) (l : List α) (i : Nat) (c : α)
    (h : i < l.length) (d : α) :
    ((l.set i c).map f).sum + f (l.getD i d) = (l.map f).sum + f c := by
  induction l generalizing i with
  | nil => simp at h
  | cons b t ih =>
    cases i with
    | zero => simp [Nat.add_comm, Nat.add_left_comm]
    | succ j =>
      have := ih j (by simpa using h)
      simp only [List.set, List.map, List.sum_cons, List.getD_cons_succ]
      omega

/-! ### Lemmas about `getCell`, `setCell`, `clearCellFlag` -/

theorem getCell_oob (m : Maze) (x y : Nat)
    (h : m.length ≤ y ∨ (m.getD y []).length ≤ x) : getCell m x y = defaultCell := by
  rcases h with h | h
  · show (m.getD y []).getD x defaultCell = defaultCell
    rw [getD_oob m y [] h]
    rfl
  · exact getD_oob _ x defaultCell h

theorem set_getD_self {α : Type _} (l : List α) (i : Nat) (d : α) (h : i < l.length) :
    l.set i (l.getD i d) = l := by
  induction l generalizing i with
  | nil => rfl
  | cons a t ih =>
    cases i with
    | zero => rfl
    | succ j => simpa using ih j (by simpa using h)

theorem getCell_setCell (m : Maze) (a b : Nat) (c : Cell) (x y : Nat) :
    getCell (setCell m a b c) x y =
      if a = x ∧ b = y ∧ b < m.length ∧ a < (m.getD b []).length then c
      else getCell m x y := by
  have hL : getCell (setCell m a b c) x y
      = ((m.set b ((m.getD b []).set a c)).getD y []).getD x defaultCell := rfl
  have hR : getCell m x y = (m.getD y []).getD x defaultCell := rfl
  by_cases hby : b = y
  · subst hby
    by_cases hbl : b < m.length
    · have h1 : (m.set b ((m.getD b []).set a c)).getD b [] = (m.getD b []).set a c := by
        rw [getD_set_self, if_pos hbl]
      by_cases hax : a = x
      · subst hax
        by_cases harow : a < (m.getD b []).length
        · rw [hL, h1, getD_set_self, if_pos harow, if_pos ⟨rfl, rfl, hbl, harow⟩]
        · rw [hL, h1, getD_set_self, if_neg harow,
            if_neg (fun hc => harow hc.2.2.2),
            getCell_oob m a b (Or.inr (by omega))]
      · rw [hL, h1, getD_set_ne _ a x _ _ hax,
          if_neg (fun hc => hax hc.1), hR]
    · have h1 : (m.set b ((m.getD b []).set a c)).getD b [] = m.getD b [] := by
        rw [getD_set_self, if_neg hbl, getD_oob m b [] (by omega)]
      rw [hL, h1, if_neg (fun hc => hbl hc.2.2.1), hR]
  · have h1 : (m.set b ((m.getD b []).set a c)).getD y [] = m.getD y [] :=
      getD_set_ne _ b y _ _ hby
    rw [hL, h1, if_neg (fun hc => hby hc.2.1), hR]

theorem getCell_clearCellFlag (m : Maze) (a b : Nat) (d : Dir) (x y : Nat) :
    getCell (clearCellFlag m a b d) x y =
      if a = x ∧ b = y then (getCell m x y).clearFlag d else getCell m x y := by
  rw [clearCellFlag, getCell_setCell]
  by_cases hab : a = x ∧ b = y
  · obtain ⟨hax, hby⟩ := hab
    subst hax
    subst hby
    conv_rhs => rw [if_pos ⟨rfl, rfl⟩]
    by_cases hbl : b < m.length
    · by_cases harow : a < (m.getD b []).length
      · rw [if_pos ⟨rfl, rfl, hbl, harow⟩]
      · rw [if_neg (fun hc => harow hc.2.2.2),
          getCell_oob m a b (Or.inr (by omega)), Cell.clearFlag_defaultCell]
    · rw [if_neg (fun hc => hbl hc.2.2.1),
        getCell_oob m a b (Or.inl (by omega)), Cell.clearFlag_defaultCell]
  · rw [if_neg (fun hc => hab ⟨hc.1, hc.2.1⟩), if_neg hab]

theorem length_clearCellFlag (m : Maze) (a b : Nat) (d : Dir) :
    (clearCellFlag m a b d).length = m.length := by
  simp [clearCellFlag, setCell]

theorem rowLength_clearCellFlag (m : Maze) (a b : Nat) (d : Dir) (y : Nat) :
    ((clearCellFlag m a b d).getD y []).length = (m.getD y []).length := by
  show (((m.set b _).getD y [])).length = _
  by_cases hby : b = y
  · subst hby
    by_cases hbl : b < m.length
    · rw [getD_set_self]
      simp [hbl]
    · rw [getD_set_self]
      simp only [hbl, if_false]
      rw [getD_oob m b [] (by omega)]
  · rw [getD_set_ne _ b y _ _ hby]

theorem totalExits_clearCellFlag (m : Maze) (a b : Nat) (d : Dir) :
    totalExits (clearCellFlag m a b d) + ((getCell m a b).flag d).toNat = totalExits m := by
  by_cases hbl : b < m.length
  · by_cases harow : a < (m.getD b []).length
    · have h1 := sum_map_set rowExits m b ((m.getD b []).set a ((getCell m a b).clearFlag d))
        hbl []
      have h2 := sum_map_set Cell.exits (m.getD b []) a ((getCell m a b).clearFlag d)
        harow defaultCell
      have h3 := Cell.exits_clearFlag (getCell m a b) d
      have hrow : rowExits ((m.getD b []).set a ((getCell m a b).clearFlag d)) =
          ((((m.getD b []).set a ((getCell m a b).clearFlag d))).map Cell.exits).sum := rfl
      have hrow2 : rowExits (m.getD b []) = ((m.getD b []).map Cell.exits).sum := rfl
      have hget : getCell m a b = (m.getD b []).getD a defaultCell := rfl
      have hLHS : totalExits (clearCellFlag m a b d) =
          ((m.set b ((m.getD b []).set a ((getCell m a b).clearFlag d))).map rowExits).sum := rfl
      have hRHS : totalExits m = (m.map rowExits).sum := rfl
      rw [hrow, hrow2] at h1
      rw [← hget] at h2
      rw [hLHS, hRHS]
      omega
    · have hdef : getCell m a b = defaultCell := getCell_oob m a b (Or.inr (by omega))
      have hm : clearCellFlag m a b d = m := by
        show m.set b ((m.getD b []).set a ((getCell m a b).clearFlag d)) = m
        rw [hdef, Cell.clearFlag_defaultCell, set_oob _ a _ (by omega)]
        exact set_getD_self m b [] hbl
      rw [hm, hdef, Cell.flag_defaultCell]
      simp
  · have hdef : getCell m a b = defaultCell := getCell_oob m a b (Or.inl (by omega))
    have hm : clearCellFlag m a b d = m := by
      show m.set b _ = m
      exact set_oob m b _ (by omega)
    rw [hm, hdef, Cell.flag_defaultCell]
    simp

theorem totalExits_clearCellFlag_le (m : Maze) (a b : Nat) (d : Dir) :
    totalExits (clearCellFlag m a b d) ≤ totalExits m := by
  have := totalExits_clearCellFlag m a b d
  omega

theorem totalExits_clearCellFlag_lt (m : Maze) (a b : Nat) (d : Dir)
    (h : (getCell m a b).flag d = true) :
    totalExits (clearCellFlag m a b d) < totalExits m := by
  have := totalExits_clearCellFlag m a b d
  rw [h] at this
  simp only [Bool.toNat_true] at this
  omega

/-! ### The `Decreasing` order -/

theorem Decreasing.refl (m : Maze) : Decreasing m m :=
  ⟨fun _ _ _ h => h, fun _ _ => rfl, rfl, fun _ => rfl, le_rfl⟩

theorem Decreasing.trans {m1 m2 m3 : Maze} (h12 : Decreasing m1 m2) (h23 : Decreasing m2 m3) :
    Decreasing m1 m3 :=
  ⟨fun x y d h => h23.1 x y d (h12.1 x y d h),
   fun x y => (h12.2.1 x y).trans (h23.2.1 x y),
   h12.2.2.1.trans h23.2.2.1,
   fun y => (h12.2.2.2.1 y).trans (h23.2.2.2.1 y),
   h12.2.2.2.2.trans h23.2.2.2.2⟩

theorem decreasing_clearCellFlag (m : Maze) (a b : Nat) (d : Dir) :
    Decreasing (clearCellFlag m a b d) m := by
  refine ⟨?_, ?_, length_clearCellFlag m a b d, rowLength_clearCellFlag m a b d,
    totalExits_clearCellFlag_le m a b d⟩
  · intro x y e h
    rw [getCell_clearCellFlag] at h
    by_cases hab : a = x ∧ b = y
    · rw [if_pos hab, Cell.flag_clearFlag] at h
      by_cases hed : e = d
      · rw [if_pos hed] at h
        exact absurd h (by simp)
      · rwa [if_neg hed] at h
    · rwa [if_neg hab] at h
  · intro x y
    rw [getCell_clearCellFlag]
    by_cases hab : a = x ∧ b = y
    · rw [if_pos hab, Cell.special_clearFlag]
    · rw [if_neg hab]

theorem Decreasing.exits_le {m' m : Maze} (h : Decreasing m' m) (x y : Nat) :
    (getCell m' x y).exits ≤ (getCell m x y).exits :=
  Cell.exits_le_of_le _ _ (fun d => h.1 x y d) (h.2.1 x y)

/-! ### Generic fold helpers -/

theorem foldl_preserve {α β : Type _} (P : β → Prop) (f : β → α → β) :
    ∀ (l : List α) (b : β), P b → (∀ b' a, a ∈ l → P b' → P (f b' a)) → P (l.foldl f b) := by
  intro l
  induction l with
  | nil => intro b hb _; exact hb
  | cons a t ih =>
    intro b hb hstep
    exact ih (f b a) (hstep b a (List.mem_cons_self a t) hb)
      (fun b' a' ha' hb' => hstep b' a' (List.mem_cons_of_mem a ha') hb')

theorem foldl_inv_suffix {α β : Type _} (P : List α → β → Prop) (f : β → α → β)
    (hstep : ∀ a rest b, P (a :: rest) b → P rest (f b a)) :
    ∀ (l : List α) (b : β), P l b → P [] (l.foldl f b) := by
  intro l
  induction l with
  | nil => intro b hb; exact hb
  | cons a t ih => intro b hb; exact ih (f b a) (hstep a t b hb)

/-! ### Structural facts about one direction step, rounds, and the loop -/

theorem processDir_decreasing (w h x y : Nat) (st : Maze × List (Nat × Nat))
    (dd : Dir × Dir × Int × Int) :
    Decreasing (processDir w h x y st dd).1 st.1 := by
  obtain ⟨d, revd, xdelta, ydelta⟩ := dd
  unfold processDir
  dsimp only
  split
  · split
    · split
      · exact (decreasing_clearCellFlag _ _ _ _).trans (decreasing_clearCellFlag _ _ _ _)
      · exact (decreasing_clearCellFlag _ _ _ _).trans (decreasing_clearCellFlag _ _ _ _)
    · exact decreasing_clearCellFlag _ _ _ _
  · exact Decreasing.refl _

theorem processDeadEnd_decreasing (w h : Nat) (st : Maze × List (Nat × Nat))
    (p : Nat × Nat) : Decreasing (processDeadEnd w h st p).1 st.1 := by
  have hgen : ∀ (L : List (Dir × Dir × Int × Int)) (s : Maze × List (Nat × Nat)),
      Decreasing s.1 st.1 → Decreasing (L.foldl (processDir w h p.1 p.2) s).1 st.1 := by
    intro L
    induction L with
    | nil => intro s hs; exact hs
    | cons a t ih =>
      intro s hs
      exact ih _ ((processDir_decreasing w h p.1 p.2 s a).trans hs)
  exact hgen directions st (Decreasing.refl _)

theorem elimRound_decreasing (w h : Nat) (st : Maze × List (Nat × Nat)) :
    Decreasing (elimRound w h st).1 st.1 := by
  have hgen : ∀ (L : List (Nat × Nat)) (s : Maze × List (Nat × Nat)),
      Decreasing s.1 st.1 → Decreasing (L.foldl (processDeadEnd w h) s).1 st.1 := by
    intro L
    induction L with
    | nil => intro s hs; exact hs
    | cons a t ih =>
      intro s hs
      exact ih _ ((processDeadEnd_decreasing w h s a).trans hs)
  exact hgen st.2 (st.1, []) (Decreasing.refl _)

theorem elimStep_decreasing (w h : Nat) (st : Maze × List (Nat × Nat)) :
    Decreasing (elimStep w h st).1 st.1 := by
  unfold elimStep
  by_cases hq : st.2 = []
  · simp only [hq, if_true]
    exact Decreasing.refl _
  · simp only [hq, if_false]
    exact elimRound_decreasing w h st

theorem elimStep_iterate_decreasing (w h : Nat) (st : Maze × List (Nat × Nat)) :
    ∀ n, Decreasing ((elimStep w h)^[n] st).1 st.1 := by
  intro n
  induction n with
  | zero => exact Decreasing.refl _
  | succ k ih =>
    rw [Function.iterate_succ_apply']
    exact (elimStep_decreasing w h _).trans ih

theorem elimStep_iterate_chain (w h : Nat) (st : Maze × List (Nat × Nat)) (n k : Nat)
    (h' : n ≤ k) :
    Decreasing ((elimStep w h)^[k] st).1 ((elimStep w h)^[n] st).1 := by
  obtain ⟨j, rfl⟩ := Nat.exists_eq_add_of_le h'
  rw [Nat.add_comm, Function.iterate_add_apply]
  exact elimStep_iterate_decreasing w h _ j

/-- When a round appends to the next queue, it has cleared a flag that was
true, so the total exit count strictly decreases. -/
theorem processDir_strict (w h x y : Nat) (E : Nat) (st : Maze × List (Nat × Nat))
    (dd : Dir × Dir × Int × Int)
    (hle : totalExits st.1 ≤ E) (hne : st.2 ≠ [] → totalExits st.1 < E) :
    totalExits (processDir w h x y st dd).1 ≤ E ∧
      ((processDir w h x y st dd).2 ≠ [] → totalExits (processDir w h x y st dd).1 < E) := by
  obtain ⟨d, revd, xdelta, ydelta⟩ := dd
  unfold processDir
  dsimp only
  split
  case isTrue hflag =>
    have hstrict : totalExits (clearCellFlag st.1 x y d) < totalExits st.1 :=
      totalExits_clearCellFlag_lt st.1 x y d hflag
    split
    case isTrue hbound =>
      have h2 : totalExits (clearCellFlag (clearCellFlag st.1 x y d)
          ((x : Int) + xdelta).toNat ((y : Int) + ydelta).toNat revd) < E := by
        have := totalExits_clearCellFlag_le (clearCellFlag st.1 x y d)
          ((x : Int) + xdelta).toNat ((y : Int) + ydelta).toNat revd
        omega
      split
      · exact ⟨le_of_lt h2, fun _ => h2⟩
      · exact ⟨le_of_lt h2, fun _ => h2⟩
    case isFalse hbound =>
      have h2 : totalExits (clearCellFlag st.1 x y d) < E := by omega
      exact ⟨le_of_lt h2, fun _ => h2⟩
  case isFalse hflag =>
    exact ⟨hle, hne⟩

theorem processDeadEnd_strict (w h : Nat) (E : Nat) (st : Maze × List (Nat × Nat))
    (p : Nat × Nat) (hle : totalExits st.1 ≤ E) (hne : st.2 ≠ [] → totalExits st.1 < E) :
    totalExits (processDeadEnd w h st p).1 ≤ E ∧
      ((processDeadEnd w h st p).2 ≠ [] → totalExits (processDeadEnd w h st p).1 < E) := by
  have hgen : ∀ (L : List (Dir × Dir × Int × Int)) (s : Maze × List (Nat × Nat)),
      totalExits s.1 ≤ E → (s.2 ≠ [] → totalExits s.1 < E) →
      totalExits (L.foldl (processDir w h p.1 p.2) s).1 ≤ E ∧
        ((L.foldl (processDir w h p.1 p.2) s).2 ≠ [] →
          totalExits (L.foldl (processDir w h p.1 p.2) s).1 < E) := by
    intro L
    induction L with
    | nil => intro s h1 h2; exact ⟨h1, h2⟩
    | cons a t ih =>
      intro s h1 h2
      have := processDir_strict w h p.1 p.2 E s a h1 h2
      exact ih _ this.1 this.2
  exact hgen directions st hle hne

theorem elimRound_strict (w h : Nat) (st : Maze × List (Nat × Nat)) :
    totalExits (elimRound w h st).1 ≤ totalExits st.1 ∧
      ((elimRound w h st).2 ≠ [] → totalExits (elimRound w h st).1 < totalExits st.1) := by
  have hgen : ∀ (L : List (Nat × Nat)) (s : Maze × List (Nat × Nat)),
      totalExits s.1 ≤ totalExits st.1 → (s.2 ≠ [] → totalExits s.1 < totalExits st.1) →
      totalExits (L.foldl (processDeadEnd w h) s).1 ≤ totalExits st.1 ∧
        ((L.foldl (processDeadEnd w h) s).2 ≠ [] →
          totalExits (L.foldl (processDeadEnd w h) s).1 < totalExits st.1) := by
    intro L
    induction L with
    | nil => intro s h1 h2; exact ⟨h1, h2⟩
    | cons a t ih =>
      intro s h1 h2
      have := processDeadEnd_strict w h (totalExits st.1) s a h1 h2
      exact ih _ this.1 this.2
  exact hgen st.2 (st.1, []) le_rfl (fun hc => absurd rfl hc)

theorem elimStep_empty_fixed (w h : Nat) (st : Maze × List (Nat × Nat))
    (hq : st.2 = []) : elimStep w h st = st := by
  unfold elimStep
  rw [if_pos hq]

theorem elimStep_iterate_empty (w h : Nat) (st : Maze × List (Nat × Nat))
    (hq : st.2 = []) : ∀ n, (elimStep w h)^[n] st = st := by
  intro n
  induction n with
  | zero => rfl
  | succ k ih =>
    rw [Function.iterate_succ_apply, elimStep_empty_fixed w h st hq, ih]

/-- Termination of the `while dead_ends:` loop: after at most
`totalExits st.1 + 1` guarded steps the queue is empty.  Each executed round
that produces a non-empty next queue cleared a true flag, so the total exit
count (a natural number) strictly decreases. -/
theorem elim_terminates (w h : Nat) : ∀ (E : Nat) (st : Maze × List (Nat × Nat)),
    totalExits st.1 ≤ E → ((elimStep w h)^[E + 1] st).2 = [] := by
  intro E
  induction E with
  | zero =>
    intro st hE
    by_cases hq : st.2 = []
    · rw [elimStep_iterate_empty w h st hq]
      exact hq
    · rw [Function.iterate_one]
      unfold elimStep
      rw [if_neg hq]
      by_cases hq' : (elimRound w h st).2 = []
      · exact hq'
      · have := (elimRound_strict w h st).2 hq'
        omega
  | succ k ih =>
    intro st hE
    by_cases hq : st.2 = []
    · rw [elimStep_iterate_empty w h st hq]
      exact hq
    · have hstep : (elimStep w h) st = elimRound w h st := by
        unfold elimStep
        rw [if_neg hq]
      by_cases hq' : (elimRound w h st).2 = []
      · rw [show k + 1 + 1 = (k + 1) + 1 from rfl, Function.iterate_succ_apply, hstep,
          elimStep_iterate_empty w h _ hq']
        exact hq'
      · have hlt := (elimRound_strict w h st).2 hq'
        have hE' : totalExits (elimRound w h st).1 ≤ k := by omega
        rw [show k + 1 + 1 = (k + 1) + 1 from rfl, Function.iterate_succ_apply, hstep]
        exact ih (elimRound w h st) hE'

/-! ### Basic facts about the connection graph -/

theorem oppositeDir_oppositeDir (d : Dir) : oppositeDir (oppositeDir d) = d := by
  cases d <;> rfl

theorem posToward_opposite (p q : Nat × Nat) (d : Dir) (h : posToward p d = some q) :
    posToward q (oppositeDir d) = some p := by
  cases d <;> simp only [posToward, oppositeDir] at h ⊢
  · by_cases h0 : p.2 = 0
    · rw [if_pos h0] at h
      exact absurd h (by simp)
    · rw [if_neg h0] at h
      obtain rfl : (p.1, p.2 - 1) = q := by injection h
      have h1 : p.2 - 1 + 1 = p.2 := by omega
      simp [h1]
  · obtain rfl : (p.1, p.2 + 1) = q := by injection h
    simp
  · by_cases h0 : p.1 = 0
    · rw [if_pos h0] at h
      exact absurd h (by simp)
    · rw [if_neg h0] at h
      obtain rfl : (p.1 - 1, p.2) = q := by injection h
      have h1 : p.1 - 1 + 1 = p.1 := by omega
      simp [h1]
  · obtain rfl : (p.1 + 1, p.2) = q := by injection h
    simp

theorem posToward_ne (p q : Nat × Nat) (d : Dir) (h : posToward p d = some q) : p ≠ q := by
  cases d <;> simp only [posToward] at h
  · by_cases h0 : p.2 = 0
    · rw [if_pos h0] at h
      exact absurd h (by simp)
    · rw [if_neg h0] at h
      obtain rfl : (p.1, p.2 - 1) = q := by injection h
      intro hc
      have h2 := congrArg Prod.snd hc
      simp at h2
      omega
  · obtain rfl : (p.1, p.2 + 1) = q := by injection h
    intro hc
    have h2 := congrArg Prod.snd hc
    simp at h2
  · by_cases h0 : p.1 = 0
    · rw [if_pos h0] at h
      exact absurd h (by simp)
    · rw [if_neg h0] at h
      obtain rfl : (p.1 - 1, p.2) = q := by injection h
      intro hc
      have h2 := congrArg Prod.fst hc
      simp at h2
      omega
  · obtain rfl : (p.1 + 1, p.2) = q := by injection h
    intro hc
    have h2 := congrArg Prod.fst hc
    simp at h2

theorem posToward_inj (p q : Nat × Nat) (d e : Dir) (hd : posToward p d = some q)
    (he : posToward p e = some q) : d = e := by
  cases d <;> cases e <;> try rfl
  all_goals simp only [posToward] at hd he
  all_goals exfalso
  all_goals try split_ifs at hd he
  all_goals (
    injection hd with hd1
    injection he with he1
    rw [← hd1, Prod.mk.injEq] at he1
    omega)

theorem Connected_symm (m : Maze) (p q : Nat × Nat) (h : Connected m p q) :
    Connected m q p := by
  obtain ⟨d, hpt, hf1, hf2⟩ := h
  exact ⟨oppositeDir d, posToward_opposite p q d hpt, hf2,
    by rw [oppositeDir_oppositeDir]; exact hf1⟩

theorem Connected_ne (m : Maze) (p q : Nat × Nat) (h : Connected m p q) : p ≠ q := by
  obtain ⟨d, hpt, _, _⟩ := h
  exact posToward_ne p q d hpt

theorem getD_eq_get {α : Type _} (l : List α) (i : Nat) (z : α) (h : i < l.length) :
    l.getD i z = l.get ⟨i, h⟩ := by
  induction l generalizing i with
  | nil => simp at h
  | cons a t ih =>
    cases i with
    | zero => rfl
    | succ j => exact ih j (by simpa using h)

theorem getD_mem_of_lt {α : Type _} (l : List α) (i : Nat) (z : α) (h : i < l.length) :
    l.getD i z ∈ l := by
  rw [getD_eq_get l i z h]
  exact l.get_mem i h

theorem nodup_getD_inj {α : Type _} (l : List α) (hl : l.Nodup) (i j : Nat) (z : α)
    (hi : i < l.length) (hj : j < l.length) (h : l.getD i z = l.getD j z) : i = j := by
  rw [getD_eq_get l i z hi, getD_eq_get l j z hj] at h
  have h2 := (List.Nodup.get_inj_iff hl).1 h
  exact congrArg Fin.val h2

theorem mem_iff_getD {α : Type _} (l : List α) (p : α) (z : α) :
    p ∈ l ↔ ∃ i, ∃ _ : i < l.length, l.getD i z = p := by
  rw [List.mem_iff_get]
  constructor
  · rintro ⟨⟨i, hi⟩, rfl⟩
    exact ⟨i, hi, getD_eq_get l i z hi⟩
  · rintro ⟨i, hi, rfl⟩
    exact ⟨⟨i, hi⟩, (getD_eq_get l i z hi).symm⟩

/-- The previous index on a cycle of length `n`. -/
theorem prev_index_mod (i n : Nat) (hi : i < n) (hn : 3 ≤ n) :
    ((i + n - 1) % n + 1) % n = i ∧ (i + n - 1) % n < n ∧
      (i + n - 1) % n ≠ (i + 1) % n := by
  have hn0 : 0 < n := by omega
  have hprev : (i + n - 1) % n = if i = 0 then n - 1 else i - 1 := by
    by_cases h0 : i = 0
    · subst h0
      rw [if_pos rfl]
      simp only [Nat.zero_add]
      exact Nat.mod_eq_of_lt (by omega)
    · rw [if_neg h0]
      have heq : i + n - 1 = (i - 1) + n := by omega
      rw [heq, Nat.add_mod_right]
      exact Nat.mod_eq_of_lt (by omega)
  have hnext : (i + 1) % n = if i + 1 = n then 0 else i + 1 := by
    by_cases h1 : i + 1 = n
    · rw [if_pos h1, h1]
      simp
    · rw [if_neg h1]
      exact Nat.mod_eq_of_lt (by omega)
  refine ⟨?_, ?_, ?_⟩
  · rw [hprev]
    by_cases h0 : i = 0
    · subst h0
      rw [if_pos rfl]
      have : n - 1 + 1 = n := by omega
      rw [this, Nat.mod_self]
    · rw [if_neg h0]
      have : i - 1 + 1 = i := by omega
      rw [this]
      exact Nat.mod_eq_of_lt hi
  · rw [hprev]
    split_ifs <;> omega
  · rw [hprev, hnext]
    split_ifs <;> omega

/-- Every member of a live cycle has at least two exits: its flags toward its
two distinct cyclic neighbours are both true. -/
theorem cycle_two_le_exits (m : Maze) (l : List (Nat × Nat)) (hl : l.Nodup)
    (hl3 : 3 ≤ l.length) (halive : EdgesAlive m l) (p : Nat × Nat) (hp : p ∈ l) :
    2 ≤ (getCell m p.1 p.2).exits := by
  obtain ⟨i, hi, hpi⟩ := (mem_iff_getD l p (0, 0)).1 hp
  obtain ⟨hj1, hjlt, hjne⟩ := prev_index_mod i l.length hi hl3
  set j := (i + l.length - 1) % l.length with hjdef
  have he1 : Connected m (l.getD j (0, 0)) (l.getD ((j + 1) % l.length) (0, 0)) :=
    halive j hjlt
  rw [hj1, hpi] at he1
  have he2 : Connected m p (l.getD ((i + 1) % l.length) (0, 0)) := by
    have := halive i hi
    rwa [hpi] at this
  have he1s : Connected m p (l.getD j (0, 0)) := Connected_symm m _ p he1
  have hprevnext : l.getD j (0, 0) ≠ l.getD ((i + 1) % l.length) (0, 0) := by
    intro hc
    exact hjne (nodup_getD_inj l hl j ((i + 1) % l.length) (0, 0) hjlt
      (Nat.mod_lt _ (by omega)) hc)
  obtain ⟨d1, hpt1, hf1, _⟩ := he1s
  obtain ⟨d2, hpt2, hf2, _⟩ := he2
  have hd12 : d1 ≠ d2 := by
    intro hc
    subst hc
    rw [hpt1] at hpt2
    exact hprevnext (by injection hpt2)
  exact Cell.two_le_exits _ d1 d2 hd12 hf1 hf2

/-- Clearing a flag at a position that is neither endpoint keeps an edge. -/
theorem Connected_clear_ne (m : Maze) (r : Nat × Nat) (d : Dir) (p q : Nat × Nat)
    (hp : r ≠ p) (hq : r ≠ q) (h : Connected m p q) :
    Connected (clearCellFlag m r.1 r.2 d) p q := by
  obtain ⟨e, hpt, hf1, hf2⟩ := h
  refine ⟨e, hpt, ?_, ?_⟩
  · rw [getCell_clearCellFlag]
    rw [if_neg (fun hc => hp (Prod.ext hc.1 hc.2))]
    exact hf1
  · rw [getCell_clearCellFlag]
    rw [if_neg (fun hc => hq (Prod.ext hc.1 hc.2))]
    exact hf2

/-- Clearing the flag of `(a, b)` that points toward `r` keeps every edge not
incident to `r`. -/
theorem Connected_clear_toward (m : Maze) (a b : Nat) (d : Dir) (r : Nat × Nat)
    (hr : posToward (a, b) d = some r) (p q : Nat × Nat) (hp : p ≠ r) (hq : q ≠ r)
    (h : Connected m p q) : Connected (clearCellFlag m a b d) p q := by
  obtain ⟨e, hpt, hf1, hf2⟩ := h
  refine ⟨e, hpt, ?_, ?_⟩
  · rw [getCell_clearCellFlag]
    by_cases hab : a = p.1 ∧ b = p.2
    · rw [if_pos hab, Cell.flag_clearFlag]
      have hpe : p = (a, b) := Prod.ext hab.1.symm hab.2.symm
      by_cases hed : e = d
      · exfalso
        subst hed
        rw [hpe, hr] at hpt
        injection hpt with hh
        exact hq hh.symm
      · rw [if_neg hed]
        exact hf1
    · rw [if_neg hab]
      exact hf1
  · rw [getCell_clearCellFlag]
    by_cases hab : a = q.1 ∧ b = q.2
    · rw [if_pos hab, Cell.flag_clearFlag]
      have hqe : q = (a, b) := Prod.ext hab.1.symm hab.2.symm
      by_cases hed : oppositeDir e = d
      · exfalso
        have hback : posToward q (oppositeDir e) = some p := posToward_opposite p q e hpt
        rw [hed, hqe, hr] at hback
        injection hback with hh
        exact hp hh.symm
      · rw [if_neg hed]
        exact hf2
    · rw [if_neg hab]
      exact hf2

/-! ### The dead-end queue invariant, one direction at a time -/

theorem getCell_clear_other (m : Maze) (a b : Nat) (d : Dir) (q : Nat × Nat)
    (hq : ¬(a = q.1 ∧ b = q.2)) :
    getCell (clearCellFlag m a b d) q.1 q.2 = getCell m q.1 q.2 := by
  rw [getCell_clearCellFlag, if_neg hq]

theorem Decreasing.flag_false {m' m : Maze} (h : Decreasing m' m) (x y : Nat) (d : Dir)
    (hf : (getCell m x y).flag d = false) : (getCell m' x y).flag d = false := by
  by_cases hc : (getCell m' x y).flag d = true
  · rw [h.1 x y d hc] at hf
    exact hf.symm ▸ hc
  · simpa using hc

/-- Bookkeeping of one direction step: cells whose exit count is exactly one
stay covered by the remaining work list, the next queue, or the processed
cell itself; queued cells keep exit count at most one; the queue only
grows. -/
theorem processDir_inv (w h x y : Nat) (R : List (Nat × Nat))
    (st : Maze × List (Nat × Nat)) (dd : Dir × Dir × Int × Int)
    (hone : ∀ q : Nat × Nat, (getCell st.1 q.1 q.2).exits = 1 →
      q ∈ R ∨ q ∈ st.2 ∨ q = (x, y))
    (hqle : ∀ q ∈ st.2, (getCell st.1 q.1 q.2).exits ≤ 1) :
    (∀ q : Nat × Nat, (getCell (processDir w h x y st dd).1 q.1 q.2).exits = 1 →
        q ∈ R ∨ q ∈ (processDir w h x y st dd).2 ∨ q = (x, y)) ∧
    (∀ q ∈ (processDir w h x y st dd).2,
        (getCell (processDir w h x y st dd).1 q.1 q.2).exits ≤ 1) ∧
    (∀ q ∈ st.2, q ∈ (processDir w h x y st dd).2) := by
  obtain ⟨d, revd, xdelta, ydelta⟩ := dd
  unfold processDir
  dsimp only
  split
  case isTrue hflag =>
    have dec1 : Decreasing (clearCellFlag st.1 x y d) st.1 :=
      decreasing_clearCellFlag st.1 x y d
    split
    case isTrue hbound =>
      have dec2 : Decreasing (clearCellFlag (clearCellFlag st.1 x y d)
          ((x : Int) + xdelta).toNat ((y : Int) + ydelta).toNat revd) st.1 :=
        (decreasing_clearCellFlag _ _ _ _).trans dec1
      have hunch : ∀ q : Nat × Nat, q ≠ (((x : Int) + xdelta).toNat,
          ((y : Int) + ydelta).toNat) → q ≠ (x, y) →
          getCell (clearCellFlag (clearCellFlag st.1 x y d)
            ((x : Int) + xdelta).toNat ((y : Int) + ydelta).toNat revd) q.1 q.2 =
            getCell st.1 q.1 q.2 := by
        intro q hq2 hq1
        rw [getCell_clear_other _ _ _ _ q
            (fun hc => hq2 (Prod.ext hc.1.symm hc.2.symm)),
          getCell_clear_other _ _ _ _ q
            (fun hc => hq1 (Prod.ext hc.1.symm hc.2.symm))]
      split
      case isTrue hone2 =>
        refine ⟨?_, ?_, ?_⟩
        · intro q hq1
          by_cases hqx : q = (((x : Int) + xdelta).toNat, ((y : Int) + ydelta).toNat)
          · right
            left
            rw [hqx]
            exact List.mem_append_right _ (List.mem_singleton.2 rfl)
          · by_cases hqp : q = (x, y)
            · right; right; exact hqp
            · rw [hunch q hqx hqp] at hq1
              rcases hone q hq1 with hR | hq | hp
              · exact Or.inl hR
              · exact Or.inr (Or.inl (List.mem_append_left _ hq))
              · exact Or.inr (Or.inr hp)
        · intro q hq
          rcases List.mem_append.1 hq with hq | hq
          · exact le_trans (dec2.exits_le q.1 q.2) (hqle q hq)
          · rw [List.mem_singleton.1 hq]
            exact le_of_eq hone2
        · intro q hq
          exact List.mem_append_left _ hq
      case isFalse hone2 =>
        refine ⟨?_, ?_, ?_⟩
        · intro q hq1
          by_cases hqx : q = (((x : Int) + xdelta).toNat, ((y : Int) + ydelta).toNat)
          · exfalso
            rw [hqx] at hq1
            exact hone2 hq1
          · by_cases hqp : q = (x, y)
            · right; right; exact hqp
            · rw [hunch q hqx hqp] at hq1
              rcases hone q hq1 with hR | hq | hp
              · exact Or.inl hR
              · exact Or.inr (Or.inl hq)
              · exact Or.inr (Or.inr hp)
        · intro q hq
          exact le_trans (dec2.exits_le q.1 q.2) (hqle q hq)
        · intro q hq
          exact hq
    case isFalse hbound =>
      refine ⟨?_, ?_, ?_⟩
      · intro q hq1
        by_cases hqp : q = (x, y)
        · right; right; exact hqp
        · rw [getCell_clear_other _ _ _ _ q
              (fun hc => hqp (Prod.ext hc.1.symm hc.2.symm))] at hq1
          rcases hone q hq1 with hR | hq | hp
          · exact Or.inl hR
          · exact Or.inr (Or.inl hq)
          · exact Or.inr (Or.inr hp)
      · intro q hq
        exact le_trans (dec1.exits_le q.1 q.2) (hqle q hq)
      · intro q hq
        exact hq
  case isFalse hflag =>
    exact ⟨hone, fun q hq => hqle q hq, fun q hq => hq⟩

theorem EdgesAlive_clear_ne (m : Maze) (r : Nat × Nat) (d : Dir) (l : List (Nat × Nat))
    (hnotin : r ∉ l) (halive : EdgesAlive m l) :
    EdgesAlive (clearCellFlag m r.1 r.2 d) l := by
  intro i hi
  refine Connected_clear_ne m r d _ _ ?_ ?_ (halive i hi)
  · intro hc
    exact hnotin (hc ▸ getD_mem_of_lt l i (0, 0) hi)
  · intro hc
    exact hnotin (hc ▸ getD_mem_of_lt l ((i + 1) % l.length) (0, 0)
      (Nat.mod_lt _ (by omega)))

theorem EdgesAlive_clear_toward (m : Maze) (a b : Nat) (d : Dir) (r : Nat × Nat)
    (hr : posToward (a, b) d = some r) (l : List (Nat × Nat)) (hnotin : r ∉ l)
    (halive : EdgesAlive m l) : EdgesAlive (clearCellFlag m a b d) l := by
  intro i hi
  refine Connected_clear_toward m a b d r hr _ _ ?_ ?_ (halive i hi)
  · intro hc
    exact hnotin (hc ▸ getD_mem_of_lt l i (0, 0) hi)
  · intro hc
    exact hnotin (hc ▸ getD_mem_of_lt l ((i + 1) % l.length) (0, 0)
      (Nat.mod_lt _ (by omega)))

/-- One direction step of the eliminator keeps every edge of a cycle the
processed cell does not lie on: its own cleared flag belongs to no cycle
edge, and the mirrored flag it clears on the neighbour points back at the
processed cell, so it belongs to a cycle edge only if the processed cell
were on the cycle. -/
theorem processDir_alive (w h x y : Nat) (st : Maze × List (Nat × Nat))
    (dd : Dir × Dir × Int × Int) (hdd : dd ∈ directions) (l : List (Nat × Nat))
    (hnotin : (x, y) ∉ l) (halive : EdgesAlive st.1 l) :
    EdgesAlive (processDir w h x y st dd).1 l := by
  simp only [directions, List.mem_cons, List.not_mem_nil, or_false] at hdd
  rcases hdd with rfl | rfl | rfl | rfl <;>
    (unfold processDir
     dsimp only
     split
     case isFalse hflag => exact halive
     case isTrue hflag => ?_)
  · split
    case isFalse hbound => exact EdgesAlive_clear_ne st.1 (x, y) Dir.up l hnotin halive
    case isTrue hbound =>
      have halive1 := EdgesAlive_clear_ne st.1 (x, y) Dir.up l hnotin halive
      have hy1 : 1 ≤ y := by omega
      have hpt : posToward (((x : Int) + 0).toNat, ((y : Int) + (-1)).toNat) Dir.down =
          some (x, y) := by
        simp only [posToward]
        have h1 : ((x : Int) + 0).toNat = x := by omega
        have h2 : ((y : Int) + (-1)).toNat = y - 1 := by omega
        rw [h1, h2]
        have h3 : y - 1 + 1 = y := by omega
        rw [h3]
      have halive2 := EdgesAlive_clear_toward (clearCellFlag st.1 x y Dir.up)
        ((x : Int) + 0).toNat ((y : Int) + (-1)).toNat Dir.down (x, y) hpt l hnotin halive1
      split <;> exact halive2
  · split
    case isFalse hbound => exact EdgesAlive_clear_ne st.1 (x, y) Dir.down l hnotin halive
    case isTrue hbound =>
      have halive1 := EdgesAlive_clear_ne st.1 (x, y) Dir.down l hnotin halive
      have hpt : posToward (((x : Int) + 0).toNat, ((y : Int) + 1).toNat) Dir.up =
          some (x, y) := by
        simp only [posToward]
        have h1 : ((x : Int) + 0).toNat = x := by omega
        have h2 : ((y : Int) + 1).toNat = y + 1 := by omega
        rw [h1, h2]
        have h3 : ¬(y + 1 = 0) := by omega
        rw [if_neg h3]
        have h4 : y + 1 - 1 = y := by omega
        rw [h4]
      have halive2 := EdgesAlive_clear_toward (clearCellFlag st.1 x y Dir.down)
        ((x : Int) + 0).toNat ((y : Int) + 1).toNat Dir.up (x, y) hpt l hnotin halive1
      split <;> exact halive2
  · split
    case isFalse hbound => exact EdgesAlive_clear_ne st.1 (x, y) Dir.left l hnotin halive
    case isTrue hbound =>
      have halive1 := EdgesAlive_clear_ne st.1 (x, y) Dir.left l hnotin halive
      have hx1 : 1 ≤ x := by omega
      have hpt : posToward (((x : Int) + (-1)).toNat, ((y : Int) + 0).toNat) Dir.right =
          some (x, y) := by
        simp only [posToward]
        have h1 : ((x : Int) + (-1)).toNat = x - 1 := by omega
        have h2 : ((y : Int) + 0).toNat = y := by omega
        rw [h1, h2]
        have h3 : x - 1 + 1 = x := by omega
        rw [h3]
      have halive2 := EdgesAlive_clear_toward (clearCellFlag st.1 x y Dir.left)
        ((x : Int) + (-1)).toNat ((y : Int) + 0).toNat Dir.right (x, y) hpt l hnotin halive1
      split <;> exact halive2
  · split
    case isFalse hbound => exact EdgesAlive_clear_ne st.1 (x, y) Dir.right l hnotin halive
    case isTrue hbound =>
      have halive1 := EdgesAlive_clear_ne st.1 (x, y) Dir.right l hnotin halive
      have hpt : posToward (((x : Int) + 1).toNat, ((y : Int) + 0).toNat) Dir.left =
          some (x, y) := by
        simp only [posToward]
        have h1 : ((x : Int) + 1).toNat = x + 1 := by omega
        have h2 : ((y : Int) + 0).toNat = y := by omega
        rw [h1, h2]
        have h3 : ¬(x + 1 = 0) := by omega
        rw [if_neg h3]
        have h4 : x + 1 - 1 = x := by omega
        rw [h4]
      have halive2 := EdgesAlive_clear_toward (clearCellFlag st.1 x y Dir.right)
        ((x : Int) + 1).toNat ((y : Int) + 0).toNat Dir.left (x, y) hpt l hnotin halive1
      split <;> exact halive2

/-- After a direction step, the processed cell's flag in that direction is
false: either it already was, or the step just cleared it (the neighbour
write targets a different cell). -/
theorem processDir_own_flag (w h x y : Nat) (st : Maze × List (Nat × Nat))
    (dd : Dir × Dir × Int × Int) (hdd : dd ∈ directions) :
    (getCell (processDir w h x y st dd).1 x y).flag dd.1 = false := by
  simp only [directions, List.mem_cons, List.not_mem_nil, or_false] at hdd
  have hown : ∀ (m : Maze) (d : Dir),
      (getCell (clearCellFlag m x y d) x y).flag d = false := by
    intro m d
    rw [getCell_clearCellFlag, if_pos ⟨rfl, rfl⟩, Cell.flag_clearFlag, if_pos rfl]
  rcases hdd with rfl | rfl | rfl | rfl <;>
    (unfold processDir
     dsimp only
     split
     case isFalse hflag => simpa using hflag
     case isTrue hflag => ?_)
  · split
    case isFalse hbound => exact hown st.1 Dir.up
    case isTrue hbound =>
      have hy1 : 1 ≤ y := by omega
      have hne : ¬(((x : Int) + 0).toNat = x ∧ ((y : Int) + (-1)).toNat = y) := by
        intro hc
        omega
      have := getCell_clear_other (clearCellFlag st.1 x y Dir.up)
        ((x : Int) + 0).toNat ((y : Int) + (-1)).toNat Dir.down (x, y) hne
      split <;> (rw [this]; exact hown st.1 Dir.up)
  · split
    case isFalse hbound => exact hown st.1 Dir.down
    case isTrue hbound =>
      have hne : ¬(((x : Int) + 0).toNat = x ∧ ((y : Int) + 1).toNat = y) := by
        intro hc
        omega
      have := getCell_clear_other (clearCellFlag st.1 x y Dir.down)
        ((x : Int) + 0).toNat ((y : Int) + 1).toNat Dir.up (x, y) hne
      split <;> (rw [this]; exact hown st.1 Dir.down)
  · split
    case isFalse hbound => exact hown st.1 Dir.left
    case isTrue hbound =>
      have hx1 : 1 ≤ x := by omega
      have hne : ¬(((x : Int) + (-1)).toNat = x ∧ ((y : Int) + 0).toNat = y) := by
        intro hc
        omega
      have := getCell_clear_other (clearCellFlag st.1 x y Dir.left)
        ((x : Int) + (-1)).toNat ((y : Int) + 0).toNat Dir.right (x, y) hne
      split <;> (rw [this]; exact hown st.1 Dir.left)
  · split
    case isFalse hbound => exact hown st.1 Dir.right
    case isTrue hbound =>
      have hne : ¬(((x : Int) + 1).toNat = x ∧ ((y : Int) + 0).toNat = y) := by
        intro hc
        omega
      have := getCell_clear_other (clearCellFlag st.1 x y Dir.right)
        ((x : Int) + 1).toNat ((y : Int) + 0).toNat Dir.left (x, y) hne
      split <;> (rw [this]; exact hown st.1 Dir.right)

theorem Cell.exits_of_flags (c : Cell) (hf : ∀ d, c.flag d = false)
    (hs : c.special = false) : c.exits = 0 := by
  have hu := hf Dir.up
  have hd := hf Dir.down
  have hl := hf Dir.left
  have hr := hf Dir.right
  simp only [Cell.flag] at hu hd hl hr
  simp [Cell.exits, hu, hd, hl, hr, hs]

/-- Processing one queued dead end clears all of its remaining flags (so it
ends with zero exits when it is not special), keeps the one-exit cells
covered by the remaining work list or the queue, keeps queued cells at exit
count at most one, and only appends to the queue. -/
theorem processDeadEnd_inv (w h : Nat) (p : Nat × Nat) (R : List (Nat × Nat))
    (st : Maze × List (Nat × Nat))
    (hone : ∀ q : Nat × Nat, (getCell st.1 q.1 q.2).exits = 1 →
      q ∈ R ∨ q ∈ st.2 ∨ q = p)
    (hqle : ∀ q ∈ st.2, (getCell st.1 q.1 q.2).exits ≤ 1)
    (hspec : (getCell st.1 p.1 p.2).special = false) :
    (∀ q : Nat × Nat, (getCell (processDeadEnd w h st p).1 q.1 q.2).exits = 1 →
        q ∈ R ∨ q ∈ (processDeadEnd w h st p).2) ∧
    (∀ q ∈ (processDeadEnd w h st p).2,
        (getCell (processDeadEnd w h st p).1 q.1 q.2).exits ≤ 1) ∧
    (∀ q ∈ st.2, q ∈ (processDeadEnd w h st p).2) ∧
    (getCell (processDeadEnd w h st p).1 p.1 p.2).exits = 0 := by
  obtain ⟨x, y⟩ := p
  have hunf : processDeadEnd w h st (x, y) =
      processDir w h x y (processDir w h x y (processDir w h x y
        (processDir w h x y st (Dir.up, Dir.down, 0, -1))
        (Dir.down, Dir.up, 0, 1)) (Dir.left, Dir.right, -1, 0))
      (Dir.right, Dir.left, 1, 0) := rfl
  rw [hunf]
  set s1 := processDir w h x y st (Dir.up, Dir.down, 0, -1) with hs1
  set s2 := processDir w h x y s1 (Dir.down, Dir.up, 0, 1) with hs2
  set s3 := processDir w h x y s2 (Dir.left, Dir.right, -1, 0) with hs3
  set s4 := processDir w h x y s3 (Dir.right, Dir.left, 1, 0) with hs4
  have I1 := processDir_inv w h x y R st (Dir.up, Dir.down, 0, -1) hone hqle
  have I2 := processDir_inv w h x y R s1 (Dir.down, Dir.up, 0, 1) I1.1 I1.2.1
  have I3 := processDir_inv w h x y R s2 (Dir.left, Dir.right, -1, 0) I2.1 I2.2.1
  have I4 := processDir_inv w h x y R s3 (Dir.right, Dir.left, 1, 0) I3.1 I3.2.1
  have d21 : Decreasing s2.1 s1.1 := processDir_decreasing w h x y s1 _
  have d32 : Decreasing s3.1 s2.1 := processDir_decreasing w h x y s2 _
  have d43 : Decreasing s4.1 s3.1 := processDir_decreasing w h x y s3 _
  have d41 : Decreasing s4.1 s1.1 := d43.trans (d32.trans d21)
  have d42 : Decreasing s4.1 s2.1 := d43.trans d32
  have d40 : Decreasing s4.1 st.1 :=
    d41.trans (processDir_decreasing w h x y st _)
  have fu : (getCell s4.1 x y).flag Dir.up = false :=
    d41.flag_false x y Dir.up
      (processDir_own_flag w h x y st (Dir.up, Dir.down, 0, -1) (by simp [directions]))
  have fd : (getCell s4.1 x y).flag Dir.down = false :=
    d42.flag_false x y Dir.down
      (processDir_own_flag w h x y s1 (Dir.down, Dir.up, 0, 1) (by simp [directions]))
  have fl : (getCell s4.1 x y).flag Dir.left = false :=
    d43.flag_false x y Dir.left
      (processDir_own_flag w h x y s2 (Dir.left, Dir.right, -1, 0) (by simp [directions]))
  have fr : (getCell s4.1 x y).flag Dir.right = false :=
    processDir_own_flag w h x y s3 (Dir.right, Dir.left, 1, 0) (by simp [directions])
  have hspec4 : (getCell s4.1 x y).special = false := by
    rw [d40.2.1 x y]
    exact hspec
  have hzero : (getCell s4.1 x y).exits = 0 := by
    refine Cell.exits_of_flags _ ?_ hspec4
    intro d
    cases d
    · exact fu
    · exact fd
    · exact fl
    · exact fr
  refine ⟨?_, I4.2.1, ?_, hzero⟩
  · intro q hq
    rcases I4.1 q hq with hR | hq2 | hqp
    · exact Or.inl hR
    · exact Or.inr hq2
    · exfalso
      rw [hqp] at hq
      rw [hzero] at hq
      exact absurd hq (by omega)
  · intro q hq
    exact I4.2.2 q (I3.2.2 q (I2.2.2 q (I1.2.2 q hq)))

/-- Processing one dead end also preserves all edges of a cycle none of
whose members has exit count at most one at this moment; the processed
cell's exit count bound keeps it off the cycle. -/
theorem processDeadEnd_alive (w h : Nat) (p : Nat × Nat)
    (st : Maze × List (Nat × Nat)) (l : List (Nat × Nat))
    (hnotin : p ∉ l) (halive : EdgesAlive st.1 l) :
    EdgesAlive (processDeadEnd w h st p).1 l := by
  obtain ⟨x, y⟩ := p
  have hunf : processDeadEnd w h st (x, y) =
      processDir w h x y (processDir w h x y (processDir w h x y
        (processDir w h x y st (Dir.up, Dir.down, 0, -1))
        (Dir.down, Dir.up, 0, 1)) (Dir.left, Dir.right, -1, 0))
      (Dir.right, Dir.left, 1, 0) := rfl
  rw [hunf]
  have a1 := processDir_alive w h x y st (Dir.up, Dir.down, 0, -1)
    (by simp [directions]) l hnotin halive
  have a2 := processDir_alive w h x y _ (Dir.down, Dir.up, 0, 1)
    (by simp [directions]) l hnotin a1
  have a3 := processDir_alive w h x y _ (Dir.left, Dir.right, -1, 0)
    (by simp [directions]) l hnotin a2
  exact processDir_alive w h x y _ (Dir.right, Dir.left, 1, 0)
    (by simp [directions]) l hnotin a3

/-- The round invariant: if every one-exit cell is queued and queued cells
have at most one exit, the same holds after a full round, and every edge of
a live cycle survives the round (its cells always keep at least two exits,
so they are never processed nor cleared from the side of a neighbour). -/
theorem elimRound_inv (w h : Nat) (m : Maze) (q : List (Nat × Nat))
    (l : List (Nat × Nat))
    (hone : ∀ p : Nat × Nat, (getCell m p.1 p.2).exits = 1 → p ∈ q)
    (hqle : ∀ p ∈ q, (getCell m p.1 p.2).exits ≤ 1)
    (hspec : ∀ x y, (getCell m x y).special = false)
    (hcyc : l = [] ∨ (l.Nodup ∧ 3 ≤ l.length))
    (halive : EdgesAlive m l) :
    (∀ p : Nat × Nat, (getCell (elimRound w h (m, q)).1 p.1 p.2).exits = 1 →
        p ∈ (elimRound w h (m, q)).2) ∧
    (∀ p ∈ (elimRound w h (m, q)).2,
        (getCell (elimRound w h (m, q)).1 p.1 p.2).exits ≤ 1) ∧
    EdgesAlive (elimRound w h (m, q)).1 l := by
  have hgen : ∀ (R : List (Nat × Nat)) (s : Maze × List (Nat × Nat)),
      (∀ p : Nat × Nat, (getCell s.1 p.1 p.2).exits = 1 → p ∈ R ∨ p ∈ s.2) →
      (∀ p ∈ s.2, (getCell s.1 p.1 p.2).exits ≤ 1) →
      (∀ p ∈ R, (getCell s.1 p.1 p.2).exits ≤ 1) →
      (∀ x y, (getCell s.1 x y).special = false) →
      EdgesAlive s.1 l →
      (∀ p : Nat × Nat,
          (getCell (R.foldl (processDeadEnd w h) s).1 p.1 p.2).exits = 1 →
          p ∈ (R.foldl (processDeadEnd w h) s).2) ∧
      (∀ p ∈ (R.foldl (processDeadEnd w h) s).2,
          (getCell (R.foldl (processDeadEnd w h) s).1 p.1 p.2).exits ≤ 1) ∧
      EdgesAlive (R.foldl (processDeadEnd w h) s).1 l := by
    intro R
    induction R with
    | nil =>
      intro s h1 h2 _ _ h5
      refine ⟨?_, h2, h5⟩
      intro p hp
      rcases h1 p hp with hc | hc
      · exact absurd hc (List.not_mem_nil p)
      · exact hc
    | cons p R ih =>
      intro s h1 h2 h3 h4 h5
      have hple : (getCell s.1 p.1 p.2).exits ≤ 1 := h3 p (List.mem_cons_self p R)
      have hone' : ∀ q : Nat × Nat, (getCell s.1 q.1 q.2).exits = 1 →
          q ∈ R ∨ q ∈ s.2 ∨ q = p := by
        intro r hr
        rcases h1 r hr with hc | hc
        · rcases List.mem_cons.1 hc with hc | hc
          · exact Or.inr (Or.inr hc)
          · exact Or.inl hc
        · exact Or.inr (Or.inl hc)
      obtain ⟨J1, J2, J3, J4⟩ :=
        processDeadEnd_inv w h p R s hone' h2 (h4 p.1 p.2)
      have hdec : Decreasing (processDeadEnd w h s p).1 s.1 :=
        processDeadEnd_decreasing w h s p
      have hnotin : p ∉ l := by
        rcases hcyc with rfl | ⟨hnd, hlen⟩
        · exact List.not_mem_nil p
        · intro hmem
          have := cycle_two_le_exits s.1 l hnd hlen h5 p hmem
          omega
      have halive' : EdgesAlive (processDeadEnd w h s p).1 l :=
        processDeadEnd_alive w h p s l hnotin h5
      refine ih (processDeadEnd w h s p) ?_ J2 ?_ ?_ halive'
      · intro r hr
        rcases J1 r hr with hc | hc
        · exact Or.inl hc
        · exact Or.inr hc
      · intro r hr
        exact le_trans (hdec.exits_le r.1 r.2) (h3 r (List.mem_cons_of_mem p hr))
      · intro a b
        rw [hdec.2.1 a b]
        exact h4 a b
  have := hgen q (m, []) (fun p hp => Or.inl (hone p hp))
    (fun p hp => absurd hp (List.not_mem_nil p)) hqle hspec halive
  exact this

/-- The guarded loop step preserves the queue invariant and live cycles. -/
theorem elimStep_inv (w h : Nat) (st : Maze × List (Nat × Nat))
    (l : List (Nat × Nat))
    (hone : ∀ p : Nat × Nat, (getCell st.1 p.1 p.2).exits = 1 → p ∈ st.2)
    (hqle : ∀ p ∈ st.2, (getCell st.1 p.1 p.2).exits ≤ 1)
    (hspec : ∀ x y, (getCell st.1 x y).special = false)
    (hcyc : l = [] ∨ (l.Nodup ∧ 3 ≤ l.length))
    (halive : EdgesAlive st.1 l) :
    (∀ p : Nat × Nat, (getCell (elimStep w h st).1 p.1 p.2).exits = 1 →
        p ∈ (elimStep w h st).2) ∧
    (∀ p ∈ (elimStep w h st).2, (getCell (elimStep w h st).1 p.1 p.2).exits ≤ 1) ∧
    (∀ x y, (getCell (elimStep w h st).1 x y).special = false) ∧
    EdgesAlive (elimStep w h st).1 l := by
  unfold elimStep
  by_cases hq : st.2 = []
  · rw [if_pos hq]
    exact ⟨hone, hqle, hspec, halive⟩
  · rw [if_neg hq]
    obtain ⟨x, y⟩ := st
    have := elimRound_inv w h x y l hone hqle hspec hcyc halive
    refine ⟨this.1, this.2.1, ?_, this.2.2⟩
    intro a b
    have hdec := elimRound_decreasing w h (x, y)
    rw [hdec.2.1 a b]
    exact hspec a b

/-- Iterating the loop preserves the queue invariant and live cycles. -/
theorem elimStep_iterate_inv (w h : Nat) (st : Maze × List (Nat × Nat))
    (l : List (Nat × Nat)) (n : Nat)
    (hone : ∀ p : Nat × Nat, (getCell st.1 p.1 p.2).exits = 1 → p ∈ st.2)
    (hqle : ∀ p ∈ st.2, (getCell st.1 p.1 p.2).exits ≤ 1)
    (hspec : ∀ x y, (getCell st.1 x y).special = false)
    (hcyc : l = [] ∨ (l.Nodup ∧ 3 ≤ l.length))
    (halive : EdgesAlive st.1 l) :
    (∀ p : Nat × Nat, (getCell ((elimStep w h)^[n] st).1 p.1 p.2).exits = 1 →
        p ∈ ((elimStep w h)^[n] st).2) ∧
    (∀ p ∈ ((elimStep w h)^[n] st).2,
        (getCell ((elimStep w h)^[n] st).1 p.1 p.2).exits ≤ 1) ∧
    (∀ x y, (getCell ((elimStep w h)^[n] st).1 x y).special = false) ∧
    EdgesAlive ((elimStep w h)^[n] st).1 l := by
  induction n generalizing st with
  | zero => exact ⟨hone, hqle, hspec, halive⟩
  | succ k ih =>
    rw [Function.iterate_succ_apply]
    obtain ⟨K1, K2, K3, K4⟩ := elimStep_inv w h st l hone hqle hspec hcyc halive
    exact ih (elimStep w h st) K1 K2 K3 K4

/-! ### Preservation of adjacency symmetry -/

theorem getCell_clearCellFlag_flag (m : Maze) (a b : Nat) (d : Dir) (x y : Nat) (e : Dir) :
    (getCell (clearCellFlag m a b d) x y).flag e =
      if a = x ∧ b = y ∧ e = d then false else (getCell m x y).flag e := by
  rw [getCell_clearCellFlag]
  by_cases hab : a = x ∧ b = y
  · rw [if_pos hab, Cell.flag_clearFlag]
    by_cases hed : e = d
    · rw [if_pos hed, if_pos ⟨hab.1, hab.2, hed⟩]
    · rw [if_neg hed, if_neg (fun hc => hed hc.2.2)]
  · rw [if_neg hab, if_neg (fun hc => hab ⟨hc.1, hc.2.1⟩)]

/-- Clearing both flags of the vertical border between `(a, b)` and
`(a, b+1)` (lower cell first) preserves adjacency symmetry. -/
theorem SymAdj_clear_vpair (m : Maze) (w h a b : Nat) (hsym : SymAdj m w h) :
    SymAdj (clearCellFlag (clearCellFlag m a b Dir.down) a (b + 1) Dir.up) w h := by
  set m2 := clearCellFlag (clearCellFlag m a b Dir.down) a (b + 1) Dir.up with hm2
  have hdown2 : ∀ x y : Nat, (getCell m2 x y).flag Dir.down =
      if a = x ∧ b = y then false else (getCell m x y).flag Dir.down := by
    intro x y
    rw [hm2]
    simp only [getCell_clearCellFlag_flag]
    rw [if_neg (fun h3 => Dir.noConfusion h3.2.2)]
    by_cases hc : a = x ∧ b = y
    · rw [if_pos ⟨hc.1, hc.2, trivial⟩, if_pos hc]
    · rw [if_neg (fun h3 => hc ⟨h3.1, h3.2.1⟩), if_neg hc]
  have hup2 : ∀ x y : Nat, (getCell m2 x y).flag Dir.up =
      if a = x ∧ b + 1 = y then false else (getCell m x y).flag Dir.up := by
    intro x y
    rw [hm2]
    simp only [getCell_clearCellFlag_flag]
    by_cases hc : a = x ∧ b + 1 = y
    · rw [if_pos ⟨hc.1, hc.2, trivial⟩, if_pos hc]
    · rw [if_neg (fun h3 => hc ⟨h3.1, h3.2.1⟩),
        if_neg (fun h3 => Dir.noConfusion h3.2.2), if_neg hc]
  have hright2 : ∀ x y : Nat, (getCell m2 x y).flag Dir.right =
      (getCell m x y).flag Dir.right := by
    intro x y
    rw [hm2]
    simp only [getCell_clearCellFlag_flag]
    rw [if_neg (fun h3 => Dir.noConfusion h3.2.2),
      if_neg (fun h3 => Dir.noConfusion h3.2.2)]
  have hleft2 : ∀ x y : Nat, (getCell m2 x y).flag Dir.left =
      (getCell m x y).flag Dir.left := by
    intro x y
    rw [hm2]
    simp only [getCell_clearCellFlag_flag]
    rw [if_neg (fun h3 => Dir.noConfusion h3.2.2),
      if_neg (fun h3 => Dir.noConfusion h3.2.2)]
  intro x hx y hy
  constructor
  · intro hy1
    show (getCell m2 x y).flag Dir.down = (getCell m2 x (y + 1)).flag Dir.up
    rw [hdown2, hup2]
    by_cases hA : a = x ∧ b = y
    · rw [if_pos hA, if_pos ⟨hA.1, by omega⟩]
    · rw [if_neg hA, if_neg (fun hB => hA ⟨hB.1, by omega⟩)]
      exact (hsym x hx y hy).1 hy1
  · intro hx1
    show (getCell m2 x y).flag Dir.right = (getCell m2 (x + 1) y).flag Dir.left
    rw [hright2, hleft2]
    exact (hsym x hx y hy).2 hx1

/-- Clearing both flags of the vertical border between `(a, b)` and
`(a, b+1)` (upper cell first) preserves adjacency symmetry. -/
theorem SymAdj_clear_vpair2 (m : Maze) (w h a b : Nat) (hsym : SymAdj m w h) :
    SymAdj (clearCellFlag (clearCellFlag m a (b + 1) Dir.up) a b Dir.down) w h := by
  set m2 := clearCellFlag (clearCellFlag m a (b + 1) Dir.up) a b Dir.down with hm2
  have hdown2 : ∀ x y : Nat, (getCell m2 x y).flag Dir.down =
      if a = x ∧ b = y then false else (getCell m x y).flag Dir.down := by
    intro x y
    rw [hm2]
    simp only [getCell_clearCellFlag_flag]
    by_cases hc : a = x ∧ b = y
    · rw [if_pos ⟨hc.1, hc.2, trivial⟩, if_pos hc]
    · rw [if_neg (fun h3 => hc ⟨h3.1, h3.2.1⟩),
        if_neg (fun h3 => Dir.noConfusion h3.2.2), if_neg hc]
  have hup2 : ∀ x y : Nat, (getCell m2 x y).flag Dir.up =
      if a = x ∧ b + 1 = y then false else (getCell m x y).flag Dir.up := by
    intro x y
    rw [hm2]
    simp only [getCell_clearCellFlag_flag]
    rw [if_neg (fun h3 => Dir.noConfusion h3.2.2)]
    by_cases hc : a = x ∧ b + 1 = y
    · rw [if_pos ⟨hc.1, hc.2, trivial⟩, if_pos hc]
    · rw [if_neg (fun h3 => hc ⟨h3.1, h3.2.1⟩), if_neg hc]
  have hright2 : ∀ x y : Nat, (getCell m2 x y).flag Dir.right =
      (getCell m x y).flag Dir.right := by
    intro x y
    rw [hm2]
    simp only [getCell_clearCellFlag_flag]
    rw [if_neg (fun h3 => Dir.noConfusion h3.2.2),
      if_neg (fun h3 => Dir.noConfusion h3.2.2)]
  have hleft2 : ∀ x y : Nat, (getCell m2 x y).flag Dir.left =
      (getCell m x y).flag Dir.left := by
    intro x y
    rw [hm2]
    simp only [getCell_clearCellFlag_flag]
    rw [if_neg (fun h3 => Dir.noConfusion h3.2.2),
      if_neg (fun h3 => Dir.noConfusion h3.2.2)]
  intro x hx y hy
  constructor
  · intro hy1
    show (getCell m2 x y).flag Dir.down = (getCell m2 x (y + 1)).flag Dir.up
    rw [hdown2, hup2]
    by_cases hA : a = x ∧ b = y
    · rw [if_pos hA, if_pos ⟨hA.1, by omega⟩]
    · rw [if_neg hA, if_neg (fun hB => hA ⟨hB.1, by omega⟩)]
      exact (hsym x hx y hy).1 hy1
  · intro hx1
    show (getCell m2 x y).flag Dir.right = (getCell m2 (x + 1) y).flag Dir.left
    rw [hright2, hleft2]
    exact (hsym x hx y hy).2 hx1

/-- Clearing both flags of the horizontal border between `(a, b)` and
`(a+1, b)` (left cell first) preserves adjacency symmetry. -/
theorem SymAdj_clear_hpair (m : Maze) (w h a b : Nat) (hsym : SymAdj m w h) :
    SymAdj (clearCellFlag (clearCellFlag m a b Dir.right) (a + 1) b Dir.left) w h := by
  set m2 := clearCellFlag (clearCellFlag m a b Dir.right) (a + 1) b Dir.left with hm2
  have hright2 : ∀ x y : Nat, (getCell m2 x y).flag Dir.right =
      if a = x ∧ b = y then false else (getCell m x y).flag Dir.right := by
    intro x y
    rw [hm2]
    simp only [getCell_clearCellFlag_flag]
    rw [if_neg (fun h3 => Dir.noConfusion h3.2.2)]
    by_cases hc : a = x ∧ b = y
    · rw [if_pos ⟨hc.1, hc.2, trivial⟩, if_pos hc]
    · rw [if_neg (fun h3 => hc ⟨h3.1, h3.2.1⟩), if_neg hc]
  have hleft2 : ∀ x y : Nat, (getCell m2 x y).flag Dir.left =
      if a + 1 = x ∧ b = y then false else (getCell m x y).flag Dir.left := by
    intro x y
    rw [hm2]
    simp only [getCell_clearCellFlag_flag]
    by_cases hc : a + 1 = x ∧ b = y
    · rw [if_pos ⟨hc.1, hc.2, trivial⟩, if_pos hc]
    · rw [if_neg (fun h3 => hc ⟨h3.1, h3.2.1⟩),
        if_neg (fun h3 => Dir.noConfusion h3.2.2), if_neg hc]
  have hdown2 : ∀ x y : Nat, (getCell m2 x y).flag Dir.down =
      (getCell m x y).flag Dir.down := by
    intro x y
    rw [hm2]
    simp only [getCell_clearCellFlag_flag]
    rw [if_neg (fun h3 => Dir.noConfusion h3.2.2),
      if_neg (fun h3 => Dir.noConfusion h3.2.2)]
  have hup2 : ∀ x y : Nat, (getCell m2 x y).flag Dir.up =
      (getCell m x y).flag Dir.up := by
    intro x y
    rw [hm2]
    simp only [getCell_clearCellFlag_flag]
    rw [if_neg (fun h3 => Dir.noConfusion h3.2.2),
      if_neg (fun h3 => Dir.noConfusion h3.2.2)]
  intro x hx y hy
  constructor
  · intro hy1
    show (getCell m2 x y).flag Dir.down = (getCell m2 x (y + 1)).flag Dir.up
    rw [hdown2, hup2]
    exact (hsym x hx y hy).1 hy1
  · intro hx1
    show (getCell m2 x y).flag Dir.right = (getCell m2 (x + 1) y).flag Dir.left
    rw [hright2, hleft2]
    by_cases hA : a = x ∧ b = y
    · rw [if_pos hA, if_pos ⟨by omega, hA.2⟩]
    · rw [if_neg hA, if_neg (fun hB => hA ⟨by omega, hB.2⟩)]
      exact (hsym x hx y hy).2 hx1

/-- Clearing both flags of the horizontal border between `(a, b)` and
`(a+1, b)` (right cell first) preserves adjacency symmetry. -/
theorem SymAdj_clear_hpair2 (m : Maze) (w h a b : Nat) (hsym : SymAdj m w h) :
    SymAdj (clearCellFlag (clearCellFlag m (a + 1) b Dir.left) a b Dir.right) w h := by
  set m2 := clearCellFlag (clearCellFlag m (a + 1) b Dir.left) a b Dir.right with hm2
  have hright2 : ∀ x y : Nat, (getCell m2 x y).flag Dir.right =
      if a = x ∧ b = y then false else (getCell m x y).flag Dir.right := by
    intro x y
    rw [hm2]
    simp only [getCell_clearCellFlag_flag]
    by_cases hc : a = x ∧ b = y
    · rw [if_pos ⟨hc.1, hc.2, trivial⟩, if_pos hc]
    · rw [if_neg (fun h3 => hc ⟨h3.1, h3.2.1⟩),
        if_neg (fun h3 => Dir.noConfusion h3.2.2), if_neg hc]
  have hleft2 : ∀ x y : Nat, (getCell m2 x y).flag Dir.left =
      if a + 1 = x ∧ b = y then false else (getCell m x y).flag Dir.left := by
    intro x y
    rw [hm2]
    simp only [getCell_clearCellFlag_flag]
    rw [if_neg (fun h3 => Dir.noConfusion h3.2.2)]
    by_cases hc : a + 1 = x ∧ b = y
    · rw [if_pos ⟨hc.1, hc.2, trivial⟩, if_pos hc]
    · rw [if_neg (fun h3 => hc ⟨h3.1, h3.2.1⟩), if_neg hc]
  have hdown2 : ∀ x y : Nat, (getCell m2 x y).flag Dir.down =
      (getCell m x y).flag Dir.down := by
    intro x y
    rw [hm2]
    simp only [getCell_clearCellFlag_flag]
    rw [if_neg (fun h3 => Dir.noConfusion h3.2.2),
      if_neg (fun h3 => Dir.noConfusion h3.2.2)]
  have hup2 : ∀ x y : Nat, (getCell m2 x y).flag Dir.up =
      (getCell m x y).flag Dir.up := by
    intro x y
    rw [hm2]
    simp only [getCell_clearCellFlag_flag]
    rw [if_neg (fun h3 => Dir.noConfusion h3.2.2),
      if_neg (fun h3 => Dir.noConfusion h3.2.2)]
  intro x hx y hy
  constructor
  · intro hy1
    show (getCell m2 x y).flag Dir.down = (getCell m2 x (y + 1)).flag Dir.up
    rw [hdown2, hup2]
    exact (hsym x hx y hy).1 hy1
  · intro hx1
    show (getCell m2 x y).flag Dir.right = (getCell m2 (x + 1) y).flag Dir.left
    rw [hright2, hleft2]
    by_cases hA : a = x ∧ b = y
    · rw [if_pos hA, if_pos ⟨by omega, hA.2⟩]
    · rw [if_neg hA, if_neg (fun hB => hA ⟨by omega, hB.2⟩)]
      exact (hsym x hx y hy).2 hx1

/-- Clearing an `up` flag with no in-grid cell above preserves symmetry. -/
theorem SymAdj_clear_up_unpaired (m : Maze) (w h x y : Nat) (hsym : SymAdj m w h)
    (hnp : ¬(x < w ∧ 1 ≤ y ∧ y < h)) : SymAdj (clearCellFlag m x y Dir.up) w h := by
  intro a ha b hb
  constructor
  · intro hb1
    show (getCell (clearCellFlag m x y Dir.up) a b).flag Dir.down =
      (getCell (clearCellFlag m x y Dir.up) a (b + 1)).flag Dir.up
    rw [getCell_clearCellFlag_flag, getCell_clearCellFlag_flag,
      if_neg (fun h3 => Dir.noConfusion h3.2.2)]
    by_cases hc : x = a ∧ y = b + 1
    · exact absurd ⟨hc.1 ▸ ha, by omega, hc.2 ▸ hb1⟩ hnp
    · rw [if_neg (fun h3 => hc ⟨h3.1, h3.2.1⟩)]
      exact (hsym a ha b hb).1 hb1
  · intro ha1
    show (getCell (clearCellFlag m x y Dir.up) a b).flag Dir.right =
      (getCell (clearCellFlag m x y Dir.up) (a + 1) b).flag Dir.left
    rw [getCell_clearCellFlag_flag, getCell_clearCellFlag_flag,
      if_neg (fun h3 => Dir.noConfusion h3.2.2),
      if_neg (fun h3 => Dir.noConfusion h3.2.2)]
    exact (hsym a ha b hb).2 ha1

/-- Clearing a `down` flag with no in-grid cell below preserves symmetry. -/
theorem SymAdj_clear_down_unpaired (m : Maze) (w h x y : Nat) (hsym : SymAdj m w h)
    (hnp : ¬(x < w ∧ y < h ∧ y + 1 < h)) : SymAdj (clearCellFlag m x y Dir.down) w h := by
  intro a ha b hb
  constructor
  · intro hb1
    show (getCell (clearCellFlag m x y Dir.down) a b).flag Dir.down =
      (getCell (clearCellFlag m x y Dir.down) a (b + 1)).flag Dir.up
    rw [getCell_clearCellFlag_flag, getCell_clearCellFlag_flag]
    conv_rhs => rw [if_neg (fun h3 => Dir.noConfusion h3.2.2)]
    by_cases hc : x = a ∧ y = b
    · exact absurd ⟨hc.1 ▸ ha, hc.2 ▸ hb, hc.2 ▸ hb1⟩ hnp
    · rw [if_neg (fun h3 => hc ⟨h3.1, h3.2.1⟩)]
      exact (hsym a ha b hb).1 hb1
  · intro ha1
    show (getCell (clearCellFlag m x y Dir.down) a b).flag Dir.right =
      (getCell (clearCellFlag m x y Dir.down) (a + 1) b).flag Dir.left
    rw [getCell_clearCellFlag_flag, getCell_clearCellFlag_flag,
      if_neg (fun h3 => Dir.noConfusion h3.2.2),
      if_neg (fun h3 => Dir.noConfusion h3.2.2)]
    exact (hsym a ha b hb).2 ha1

/-- Clearing a `left` flag with no in-grid cell to the left preserves
symmetry. -/
theorem SymAdj_clear_left_unpaired (m : Maze) (w h x y : Nat) (hsym : SymAdj m w h)
    (hnp : ¬(1 ≤ x ∧ x < w ∧ y < h)) : SymAdj (clearCellFlag m x y Dir.left) w h := by
  intro a ha b hb
  constructor
  · intro hb1
    show (getCell (clearCellFlag m x y Dir.left) a b).flag Dir.down =
      (getCell (clearCellFlag m x y Dir.left) a (b + 1)).flag Dir.up
    rw [getCell_clearCellFlag_flag, getCell_clearCellFlag_flag,
      if_neg (fun h3 => Dir.noConfusion h3.2.2),
      if_neg (fun h3 => Dir.noConfusion h3.2.2)]
    exact (hsym a ha b hb).1 hb1
  · intro ha1
    show (getCell (clearCellFlag m x y Dir.left) a b).flag Dir.right =
      (getCell (clearCellFlag m x y Dir.left) (a + 1) b).flag Dir.left
    rw [getCell_clearCellFlag_flag, getCell_clearCellFlag_flag]
    conv_lhs => rw [if_neg (fun h3 => Dir.noConfusion h3.2.2)]
    by_cases hc : x = a + 1 ∧ y = b
    · exact absurd ⟨by omega, hc.1 ▸ ha1, hc.2 ▸ hb⟩ hnp
    · rw [if_neg (fun h3 => hc ⟨h3.1, h3.2.1⟩)]
      exact (hsym a ha b hb).2 ha1

/-- Clearing a `right` flag with no in-grid cell to the right preserves
symmetry. -/
theorem SymAdj_clear_right_unpaired (m : Maze) (w h x y : Nat) (hsym : SymAdj m w h)
    (hnp : ¬(x < w ∧ y < h ∧ x + 1 < w)) : SymAdj (clearCellFlag m x y Dir.right) w h := by
  intro a ha b hb
  constructor
  · intro hb1
    show (getCell (clearCellFlag m x y Dir.right) a b).flag Dir.down =
      (getCell (clearCellFlag m x y Dir.right) a (b + 1)).flag Dir.up
    rw [getCell_clearCellFlag_flag, getCell_clearCellFlag_flag,
      if_neg (fun h3 => Dir.noConfusion h3.2.2),
      if_neg (fun h3 => Dir.noConfusion h3.2.2)]
    exact (hsym a ha b hb).1 hb1
  · intro ha1
    show (getCell (clearCellFlag m x y Dir.right) a b).flag Dir.right =
      (getCell (clearCellFlag m x y Dir.right) (a + 1) b).flag Dir.left
    rw [getCell_clearCellFlag_flag, getCell_clearCellFlag_flag]
    conv_rhs => rw [if_neg (fun h3 => Dir.noConfusion h3.2.2)]
    by_cases hc : x = a ∧ y = b
    · exact absurd ⟨hc.1 ▸ ha, hc.2 ▸ hb, hc.1 ▸ ha1⟩ hnp
    · rw [if_neg (fun h3 => hc ⟨h3.1, h3.2.1⟩)]
      exact (hsym a ha b hb).2 ha1

/-- One direction step preserves adjacency symmetry: a clear with an
in-bounds neighbour clears both sides of the shared border, and a clear at
the boundary touches a flag no symmetry constraint mentions. -/
theorem processDir_symadj (w h x y : Nat) (st : Maze × List (Nat × Nat))
    (dd : Dir × Dir × Int × Int) (hdd : dd ∈ directions)
    (hsym : SymAdj st.1 w h) : SymAdj (processDir w h x y st dd).1 w h := by
  simp only [directions, List.mem_cons, List.not_mem_nil, or_false] at hdd
  rcases hdd with rfl | rfl | rfl | rfl <;>
    (unfold processDir
     dsimp only
     split
     case isFalse hflag => exact hsym
     case isTrue hflag => ?_)
  · split
    case isTrue hbound =>
      have h1 : ((x : Int) + 0).toNat = x := by omega
      have h2 : ((y : Int) + (-1)).toNat = y - 1 := by omega
      rw [h1, h2]
      have := SymAdj_clear_vpair2 st.1 w h x (y - 1) hsym
      rw [show y - 1 + 1 = y from by omega] at this
      split <;> exact this
    case isFalse hbound =>
      refine SymAdj_clear_up_unpaired st.1 w h x y hsym ?_
      intro hc
      exact hbound (by omega)
  · split
    case isTrue hbound =>
      have h1 : ((x : Int) + 0).toNat = x := by omega
      have h2 : ((y : Int) + 1).toNat = y + 1 := by omega
      rw [h1, h2]
      have := SymAdj_clear_vpair st.1 w h x y hsym
      split <;> exact this
    case isFalse hbound =>
      refine SymAdj_clear_down_unpaired st.1 w h x y hsym ?_
      intro hc
      exact hbound (by omega)
  · split
    case isTrue hbound =>
      have h1 : ((x : Int) + (-1)).toNat = x - 1 := by omega
      have h2 : ((y : Int) + 0).toNat = y := by omega
      rw [h1, h2]
      have := SymAdj_clear_hpair2 st.1 w h (x - 1) y hsym
      rw [show x - 1 + 1 = x from by omega] at this
      split <;> exact this
    case isFalse hbound =>
      refine SymAdj_clear_left_unpaired st.1 w h x y hsym ?_
      intro hc
      exact hbound (by omega)
  · split
    case isTrue hbound =>
      have h1 : ((x : Int) + 1).toNat = x + 1 := by omega
      have h2 : ((y : Int) + 0).toNat = y := by omega
      rw [h1, h2]
      have := SymAdj_clear_hpair st.1 w h x y hsym
      split <;> exact this
    case isFalse hbound =>
      refine SymAdj_clear_right_unpaired st.1 w h x y hsym ?_
      intro hc
      exact hbound (by omega)

theorem processDeadEnd_symadj (w h : Nat) (st : Maze × List (Nat × Nat))
    (p : Nat × Nat) (hsym : SymAdj st.1 w h) :
    SymAdj (processDeadEnd w h st p).1 w h := by
  have hgen : ∀ (L : List (Dir × Dir × Int × Int)), (∀ dd ∈ L, dd ∈ directions) →
      ∀ (s : Maze × List (Nat × Nat)), SymAdj s.1 w h →
      SymAdj (L.foldl (processDir w h p.1 p.2) s).1 w h := by
    intro L
    induction L with
    | nil => intro _ s hs; exact hs
    | cons a t ih =>
      intro hmem s hs
      exact ih (fun dd hdd => hmem dd (List.mem_cons_of_mem a hdd)) _
        (processDir_symadj w h p.1 p.2 s a (hmem a (List.mem_cons_self a t)) hs)
  exact hgen directions (fun dd hdd => hdd) st hsym

theorem elimStep_symadj (w h : Nat) (st : Maze × List (Nat × Nat))
    (hsym : SymAdj st.1 w h) : SymAdj (elimStep w h st).1 w h := by
  unfold elimStep
  by_cases hq : st.2 = []
  · rw [if_pos hq]
    exact hsym
  · rw [if_neg hq]
    have hgen : ∀ (L : List (Nat × Nat)) (s : Maze × List (Nat × Nat)),
        SymAdj s.1 w h → SymAdj (L.foldl (processDeadEnd w h) s).1 w h := by
      intro L
      induction L with
      | nil => intro s hs; exact hs
      | cons a t ih =>
        intro s hs
        exact ih _ (processDeadEnd_symadj w h s a hs)
    exact hgen st.2 (st.1, []) hsym

theorem elimStep_iterate_symadj (w h : Nat) (st : Maze × List (Nat × Nat)) (n : Nat)
    (hsym : SymAdj st.1 w h) : SymAdj ((elimStep w h)^[n] st).1 w h := by
  induction n generalizing st with
  | zero => exact hsym
  | succ k ih =>
    rw [Function.iterate_succ_apply]
    exact ih _ (elimStep_symadj w h st hsym)

/-! ### From a stuck state with an open flag to a cycle -/

theorem getCell_oob_rect (m : Maze) (w h : Nat) (hrect : Rectangular m w h)
    (x y : Nat) (hxy : ¬(x < w ∧ y < h)) : getCell m x y = defaultCell := by
  by_cases hy : y < h
  · have hx : ¬x < w := fun hx => hxy ⟨hx, hy⟩
    exact getCell_oob m x y (Or.inr (by rw [hrect.2 y hy]; omega))
  · exact getCell_oob m x y (Or.inl (by rw [hrect.1]; omega))

theorem flag_in_grid (m : Maze) (w h : Nat) (hrect : Rectangular m w h)
    (x y : Nat) (d : Dir) (hf : (getCell m x y).flag d = true) : x < w ∧ y < h := by
  by_contra hc
  rw [getCell_oob_rect m w h hrect x y hc, Cell.flag_defaultCell] at hf
  exact Bool.noConfusion hf

theorem Decreasing.rect {m' m : Maze} (hdec : Decreasing m' m) (w h : Nat)
    (hrect : Rectangular m w h) : Rectangular m' w h := by
  constructor
  · rw [hdec.2.2.1, hrect.1]
  · intro y hy
    rw [hdec.2.2.2.1 y]
    exact hrect.2 y hy

theorem Decreasing.boundary {m' m : Maze} (hdec : Decreasing m' m) (w h : Nat)
    (hbc : BoundaryClosed m w h) : BoundaryClosed m' w h := by
  intro x hx y hy
  obtain ⟨h1, h2, h3, h4⟩ := hbc x hx y hy
  exact ⟨fun hc => hdec.flag_false x y Dir.up (h1 hc),
    fun hc => hdec.flag_false x y Dir.down (h2 hc),
    fun hc => hdec.flag_false x y Dir.left (h3 hc),
    fun hc => hdec.flag_false x y Dir.right (h4 hc)⟩

theorem specials_unbounded (m : Maze) (w h : Nat) (hrect : Rectangular m w h)
    (hspec : SpecialsOff m w h) : ∀ x y, (getCell m x y).special = false := by
  intro x y
  by_cases hxy : x < w ∧ y < h
  · exact hspec x hxy.1 y hxy.2
  · rw [getCell_oob_rect m w h hrect x y hxy]
    rfl

theorem Cell.one_le_exits_of_flag (c : Cell) (d : Dir) (hf : c.flag d = true) :
    1 ≤ c.exits := by
  cases d <;> simp only [Cell.flag] at hf <;> simp [Cell.exits, hf] <;> omega

theorem Cell.exists_two_flags (c : Cell) (hs : c.special = false) (h2 : 2 ≤ c.exits) :
    ∃ d e : Dir, d ≠ e ∧ c.flag d = true ∧ c.flag e = true := by
  rcases c with ⟨u, dn, lf, rt, sp⟩
  simp only at hs
  subst hs
  cases u <;> cases dn <;> cases lf <;> cases rt <;>
    simp only [Cell.exits, Bool.toNat_true, Bool.toNat_false] at h2 <;>
    first
    | omega
    | exact ⟨Dir.up, Dir.down, by decide, rfl, rfl⟩
    | exact ⟨Dir.up, Dir.left, by decide, rfl, rfl⟩
    | exact ⟨Dir.up, Dir.right, by decide, rfl, rfl⟩
    | exact ⟨Dir.down, Dir.left, by decide, rfl, rfl⟩
    | exact ⟨Dir.down, Dir.right, by decide, rfl, rfl⟩
    | exact ⟨Dir.left, Dir.right, by decide, rfl, rfl⟩

/-- In a rectangular, symmetric, boundary-closed grid every true flag
yields an edge of the connection graph. -/
theorem Connected_of_flag (m : Maze) (w h : Nat) (hrect : Rectangular m w h)
    (hsym : SymAdj m w h) (hbc : BoundaryClosed m w h) (x y : Nat) (d : Dir)
    (hf : (getCell m x y).flag d = true) :
    ∃ q : Nat × Nat, posToward (x, y) d = some q ∧ Connected m (x, y) q := by
  obtain ⟨hx, hy⟩ := flag_in_grid m w h hrect x y d hf
  obtain ⟨hb1, hb2, hb3, hb4⟩ := hbc x hx y hy
  cases d
  · have hf2 : (getCell m x y).up = true := hf
    have hy0 : y ≠ 0 := by
      intro hc
      rw [hb1 hc] at hf2
      exact Bool.noConfusion hf2
    have hpt : posToward (x, y) Dir.up = some (x, y - 1) := by
      simp only [posToward]
      rw [if_neg hy0]
    refine ⟨(x, y - 1), hpt, Dir.up, hpt, hf, ?_⟩
    have hs := (hsym x hx (y - 1) (by omega)).1 (by omega)
    rw [show y - 1 + 1 = y from by omega] at hs
    show (getCell m x (y - 1)).down = true
    rw [hs]
    exact hf2
  · have hf2 : (getCell m x y).down = true := hf
    have hyh : y + 1 < h := by
      rcases Nat.lt_or_ge (y + 1) h with hlt | hge
      · exact hlt
      · exfalso
        have hyeq : y + 1 = h := by omega
        rw [hb2 hyeq] at hf2
        exact Bool.noConfusion hf2
    have hpt : posToward (x, y) Dir.down = some (x, y + 1) := rfl
    refine ⟨(x, y + 1), hpt, Dir.down, hpt, hf, ?_⟩
    have hs := (hsym x hx y hy).1 hyh
    show (getCell m x (y + 1)).up = true
    rw [← hs]
    exact hf2
  · have hf2 : (getCell m x y).left = true := hf
    have hx0 : x ≠ 0 := by
      intro hc
      rw [hb3 hc] at hf2
      exact Bool.noConfusion hf2
    have hpt : posToward (x, y) Dir.left = some (x - 1, y) := by
      simp only [posToward]
      rw [if_neg hx0]
    refine ⟨(x - 1, y), hpt, Dir.left, hpt, hf, ?_⟩
    have hs := (hsym (x - 1) (by omega) y hy).2 (by omega)
    rw [show x - 1 + 1 = x from by omega] at hs
    show (getCell m (x - 1) y).right = true
    rw [hs]
    exact hf2
  · have hf2 : (getCell m x y).right = true := hf
    have hxw : x + 1 < w := by
      rcases Nat.lt_or_ge (x + 1) w with hlt | hge
      · exact hlt
      · exfalso
        have hxeq : x + 1 = w := by omega
        rw [hb4 hxeq] at hf2
        exact Bool.noConfusion hf2
    have hpt : posToward (x, y) Dir.right = some (x + 1, y) := rfl
    refine ⟨(x + 1, y), hpt, Dir.right, hpt, hf, ?_⟩
    have hs := (hsym x hx y hy).2 hxw
    show (getCell m (x + 1) y).left = true
    rw [← hs]
    exact hf2

theorem Connected_in_grid (m : Maze) (w h : Nat) (hrect : Rectangular m w h)
    (p q : Nat × Nat) (hc : Connected m p q) :
    (p.1 < w ∧ p.2 < h) ∧ (q.1 < w ∧ q.2 < h) := by
  obtain ⟨d, _, hf1, hf2⟩ := hc
  exact ⟨flag_in_grid m w h hrect p.1 p.2 d hf1,
    flag_in_grid m w h hrect q.1 q.2 (oppositeDir d) hf2⟩

theorem Connected_mono (m' m : Maze) (hdec : Decreasing m' m) (p q : Nat × Nat)
    (hc : Connected m' p q) : Connected m p q := by
  obtain ⟨d, hpt, hf1, hf2⟩ := hc
  exact ⟨d, hpt, hdec.1 p.1 p.2 d hf1, hdec.1 q.1 q.2 (oppositeDir d) hf2⟩

theorem HasCycle_mono (m' m : Maze) (hdec : Decreasing m' m) (hc : HasCycle m') :
    HasCycle m := by
  obtain ⟨l, hnd, hlen, hedges⟩ := hc
  exact ⟨l, hnd, hlen, fun i hi => Connected_mono m' m hdec _ _ (hedges i hi)⟩

theorem take_getD {α : Type _} (l : List α) (n j : Nat) (z : α) (hj : j < n) :
    (l.take n).getD j z = l.getD j z := by
  induction l generalizing n j with
  | nil => simp
  | cons a t ih =>
    cases n with
    | zero => omega
    | succ k =>
      cases j with
      | zero => rfl
      | succ i => simpa using ih k i (by omega)

theorem nodup_in_grid_bound (l : List (Nat × Nat)) (hl : l.Nodup) (w h : Nat)
    (hin : ∀ p ∈ l, p.1 < w ∧ p.2 < h) : l.length ≤ w * h := by
  have hsub : l.toFinset ⊆ (Finset.range w) ×ˢ (Finset.range h) := by
    intro p hp
    rw [List.mem_toFinset] at hp
    rw [Finset.mem_product, Finset.mem_range, Finset.mem_range]
    exact hin p hp
  have hcard := Finset.card_le_card hsub
  rw [Finset.card_product, Finset.card_range, Finset.card_range,
    List.toFinset_card_of_nodup hl] at hcard
  exact hcard

theorem path_in_grid (F : Maze) (w h : Nat) (hrect : Rectangular F w h)
    (l : List (Nat × Nat)) (h2 : 2 ≤ l.length)
    (hedges : ∀ i, i + 1 < l.length →
      Connected F (l.getD i (0, 0)) (l.getD (i + 1) (0, 0))) :
    ∀ p ∈ l, p.1 < w ∧ p.2 < h := by
  intro p hp
  obtain ⟨i, hi, rfl⟩ := (mem_iff_getD l p (0, 0)).1 hp
  by_cases hilt : i + 1 < l.length
  · exact (Connected_in_grid F w h hrect _ _ (hedges i hilt)).1
  · have hprev : (i - 1) + 1 < l.length := by omega
    have hin := (Connected_in_grid F w h hrect _ _ (hedges (i - 1) hprev)).2
    rw [show i - 1 + 1 = i from by omega] at hin
    exact hin

/-- The head of a chain has a neighbour besides the second element whenever
its exit count is at least two and never exactly one. -/
theorem second_neighbor (F : Maze) (w h : Nat) (hrect : Rectangular F w h)
    (hsym : SymAdj F w h) (hbc : BoundaryClosed F w h)
    (hspec : ∀ x y, (getCell F x y).special = false)
    (hno1 : ∀ x y, (getCell F x y).exits ≠ 1)
    (l : List (Nat × Nat)) (h2 : 2 ≤ l.length)
    (hedges : ∀ i, i + 1 < l.length →
      Connected F (l.getD i (0, 0)) (l.getD (i + 1) (0, 0))) :
    ∃ u : Nat × Nat, u ≠ l.getD 1 (0, 0) ∧ Connected F (l.getD 0 (0, 0)) u := by
  have hab : Connected F (l.getD 0 (0, 0)) (l.getD 1 (0, 0)) := hedges 0 (by omega)
  obtain ⟨d0, _, hfa, _⟩ := hab
  have hge1 := Cell.one_le_exits_of_flag _ d0 hfa
  have hge2 : 2 ≤ (getCell F (l.getD 0 (0, 0)).1 (l.getD 0 (0, 0)).2).exits := by
    have := hno1 (l.getD 0 (0, 0)).1 (l.getD 0 (0, 0)).2
    omega
  obtain ⟨d1, d2, hdne, hf1, hf2⟩ := Cell.exists_two_flags _
    (hspec (l.getD 0 (0, 0)).1 (l.getD 0 (0, 0)).2) hge2
  obtain ⟨n1, hpt1, hc1⟩ := Connected_of_flag F w h hrect hsym hbc _ _ d1 hf1
  obtain ⟨n2, hpt2, hc2⟩ := Connected_of_flag F w h hrect hsym hbc _ _ d2 hf2
  have hn12 : n1 ≠ n2 := by
    intro hc
    exact hdne (posToward_inj _ n2 d1 d2 (hc ▸ hpt1) hpt2)
  by_cases hn1 : n1 = l.getD 1 (0, 0)
  · refine ⟨n2, ?_, hc2⟩
    intro hc
    exact hn12 (hn1.trans hc.symm)
  · exact ⟨n1, hn1, hc1⟩

/-- When the extra neighbour of the head revisits the chain, the prefix up
to the revisited index closes into a simple cycle. -/
theorem cycle_of_revisit (F : Maze) (l : List (Nat × Nat)) (hnd : l.Nodup)
    (_h2 : 2 ≤ l.length)
    (hedges : ∀ i, i + 1 < l.length →
      Connected F (l.getD i (0, 0)) (l.getD (i + 1) (0, 0)))
    (u : Nat × Nat) (hau : Connected F (l.getD 0 (0, 0)) u)
    (hua : u ≠ l.getD 0 (0, 0)) (hub : u ≠ l.getD 1 (0, 0)) (humem : u ∈ l) :
    HasCycle F := by
  obtain ⟨i, hi, hgd⟩ := (mem_iff_getD l u (0, 0)).1 humem
  have hi0 : i ≠ 0 := by
    intro hc
    exact hua (by rw [← hgd, hc])
  have hi1 : i ≠ 1 := by
    intro hc
    exact hub (by rw [← hgd, hc])
  have hi2 : 2 ≤ i := by omega
  have hlen : (l.take (i + 1)).length = i + 1 := by
    rw [List.length_take]
    omega
  refine ⟨l.take (i + 1), (List.take_sublist (i + 1) l).nodup hnd, ?_, ?_⟩
  · rw [hlen]
    omega
  · intro j hj
    rw [hlen] at hj
    simp only [hlen]
    by_cases hji : j < i
    · rw [take_getD l (i + 1) j (0, 0) (by omega),
        Nat.mod_eq_of_lt (by omega : j + 1 < i + 1),
        take_getD l (i + 1) (j + 1) (0, 0) (by omega)]
      exact hedges j (by omega)
    · have hjeq : j = i := by omega
      subst hjeq
      rw [Nat.mod_self, take_getD l (j + 1) j (0, 0) (by omega),
        take_getD l (j + 1) 0 (0, 0) (by omega), hgd]
      exact Connected_symm F _ u hau

theorem extend_edges (F : Maze) (l : List (Nat × Nat)) (u : Nat × Nat)
    (hedges : ∀ i, i + 1 < l.length →
      Connected F (l.getD i (0, 0)) (l.getD (i + 1) (0, 0)))
    (hua : Connected F u (l.getD 0 (0, 0))) :
    ∀ i, i + 1 < (u :: l).length →
      Connected F ((u :: l).getD i (0, 0)) ((u :: l).getD (i + 1) (0, 0)) := by
  intro i hi
  cases i with
  | zero => simpa using hua
  | succ j =>
    rw [List.getD_cons_succ, List.getD_cons_succ]
    exact hedges j (by simpa using hi)

/-- Repeatedly extend a simple chain at its head; since the grid is finite,
either the extension revisits the chain (yielding a cycle) or it would
exceed the number of cells. -/
theorem path_grow (F : Maze) (w h : Nat) (hrect : Rectangular F w h)
    (hsym : SymAdj F w h) (hbc : BoundaryClosed F w h)
    (hspec : ∀ x y, (getCell F x y).special = false)
    (hno1 : ∀ x y, (getCell F x y).exits ≠ 1) :
    ∀ (k : Nat) (l : List (Nat × Nat)), 2 ≤ l.length → l.Nodup →
      (∀ i, i + 1 < l.length →
        Connected F (l.getD i (0, 0)) (l.getD (i + 1) (0, 0))) →
      w * h ≤ l.length + k → HasCycle F := by
  intro k
  induction k with
  | zero =>
    intro l h2 hnd hedges hbound
    obtain ⟨u, hub, hau⟩ :=
      second_neighbor F w h hrect hsym hbc hspec hno1 l h2 hedges
    have hua : u ≠ l.getD 0 (0, 0) := (Connected_ne F _ u hau).symm
    by_cases humem : u ∈ l
    · exact cycle_of_revisit F l hnd h2 hedges u hau hua hub humem
    · exfalso
      have hedges' := extend_edges F l u hedges (Connected_symm F _ u hau)
      have hin := path_in_grid F w h hrect (u :: l) (by simp; omega) hedges'
      have hb := nodup_in_grid_bound (u :: l) (List.nodup_cons.2 ⟨humem, hnd⟩) w h hin
      simp only [List.length_cons] at hb
      omega
  | succ n ih =>
    intro l h2 hnd hedges hbound
    obtain ⟨u, hub, hau⟩ :=
      second_neighbor F w h hrect hsym hbc hspec hno1 l h2 hedges
    have hua : u ≠ l.getD 0 (0, 0) := (Connected_ne F _ u hau).symm
    by_cases humem : u ∈ l
    · exact cycle_of_revisit F l hnd h2 hedges u hau hua hub humem
    · refine ih (u :: l) (by simp; omega) (List.nodup_cons.2 ⟨humem, hnd⟩)
        (extend_edges F l u hedges (Connected_symm F _ u hau)) ?_
      simp only [List.length_cons]
      omega

theorem stuck_has_cycle (F : Maze) (w h : Nat) (hrect : Rectangular F w h)
    (hsym : SymAdj F w h) (hbc : BoundaryClosed F w h)
    (hspec : ∀ x y, (getCell F x y).special = false)
    (hno1 : ∀ x y, (getCell F x y).exits ≠ 1)
    (x y : Nat) (hnz : (getCell F x y).exits ≠ 0) : HasCycle F := by
  have hge2 : 2 ≤ (getCell F x y).exits := by
    have := hno1 x y
    omega
  obtain ⟨d1, d2, hdne, hf1, hf2⟩ := Cell.exists_two_flags _ (hspec x y) hge2
  obtain ⟨n1, hpt1, hc1⟩ := Connected_of_flag F w h hrect hsym hbc x y d1 hf1
  refine path_grow F w h hrect hsym hbc hspec hno1 (w * h) [(x, y), n1]
    (by simp) ?_ ?_ (by simp)
  · refine List.nodup_cons.2 ⟨?_, List.nodup_singleton n1⟩
    intro hc
    rw [List.mem_singleton] at hc
    exact Connected_ne F (x, y) n1 hc1 hc
  · intro i hi
    have hi0 : i = 0 := by simp at hi; omega
    subst hi0
    simpa using hc1

theorem initialDeadEnds_mem (w h : Nat) (m : Maze) (p : Nat × Nat) :
    p ∈ initialDeadEnds w h m ↔
      p.1 < w ∧ p.2 < h ∧ (getCell m p.1 p.2).exits = 1 := by
  obtain ⟨i, j⟩ := p
  unfold initialDeadEnds
  rw [List.mem_flatMap]
  constructor
  · rintro ⟨a, ha, hmem⟩
    rw [List.mem_map] at hmem
    obtain ⟨b, hb, heq⟩ := hmem
    rw [List.mem_filter, List.mem_range] at hb
    obtain ⟨rfl, rfl⟩ : a = i ∧ b = j := by
      constructor
      · exact congrArg Prod.fst heq
      · exact congrArg Prod.snd heq
    exact ⟨List.mem_range.1 ha, hb.1, by simpa using hb.2⟩
  · rintro ⟨hi, hj, hex⟩
    refine ⟨i, List.mem_range.2 hi, ?_⟩
    rw [List.mem_map]
    refine ⟨j, ?_, rfl⟩
    rw [List.mem_filter, List.mem_range]
    exact ⟨hj, by simpa using hex⟩

/-- The master elimination theorem: starting from a rectangular, symmetric,
boundary-closed maze with no special flags, the fixed point reached by
`cut_dead_ends` has no cell with exactly one exit, keeps every cycle of the
initial maze alive, and conversely any surviving exit exhibits a cycle of
the initial maze. -/
theorem elimination_master (m : Maze) (w h : Nat)
    (hrect : Rectangular m w h) (hsym : SymAdj m w h) (hbc : BoundaryClosed m w h)
    (hspec : ∀ x y, (getCell m x y).special = false) :
    (∀ x y, (getCell ((elimStep w h)^[totalExits m + 1]
        (m, initialDeadEnds w h m)).1 x y).exits ≠ 1) ∧
    (HasCycle m → ∃ x y, (getCell ((elimStep w h)^[totalExits m + 1]
        (m, initialDeadEnds w h m)).1 x y).exits ≠ 0) ∧
    ((∃ x y, (getCell ((elimStep w h)^[totalExits m + 1]
        (m, initialDeadEnds w h m)).1 x y).exits ≠ 0) → HasCycle m) := by
  set N := totalExits m + 1 with hN
  set st0 : Maze × List (Nat × Nat) := (m, initialDeadEnds w h m) with hst0
  have hone0 : ∀ p : Nat × Nat, (getCell st0.1 p.1 p.2).exits = 1 → p ∈ st0.2 := by
    intro p hp
    rw [hst0]
    rw [initialDeadEnds_mem]
    refine ⟨?_, ?_, hp⟩
    · by_contra hc
      by_cases hq : p.2 < h
      · rw [getCell_oob_rect m w h hrect p.1 p.2 (fun hcc => hc hcc.1)] at hp
        simp [Cell.exits_defaultCell] at hp
      · rw [getCell_oob_rect m w h hrect p.1 p.2 (fun hcc => hq hcc.2)] at hp
        simp [Cell.exits_defaultCell] at hp
    · by_contra hc
      rw [getCell_oob_rect m w h hrect p.1 p.2 (fun hcc => hc hcc.2)] at hp
      simp [Cell.exits_defaultCell] at hp
  have hqle0 : ∀ p ∈ st0.2, (getCell st0.1 p.1 p.2).exits ≤ 1 := by
    intro p hp
    rw [hst0, initialDeadEnds_mem] at hp
    exact le_of_eq hp.2.2
  have hqempty : ((elimStep w h)^[N] st0).2 = [] :=
    elim_terminates w h (totalExits m) st0 le_rfl
  have hdecN : Decreasing ((elimStep w h)^[N] st0).1 m :=
    elimStep_iterate_decreasing w h st0 N
  have hno1 : ∀ x y, (getCell ((elimStep w h)^[N] st0).1 x y).exits ≠ 1 := by
    intro x y hx1
    have := (elimStep_iterate_inv w h st0 [] N hone0 hqle0 hspec (Or.inl rfl)
      (fun i hi => absurd hi (by simp))).1 (x, y) hx1
    rw [hqempty] at this
    exact absurd this (List.not_mem_nil (x, y))
  refine ⟨hno1, ?_, ?_⟩
  · rintro ⟨l, hnd, hlen, halive⟩
    have hfin := (elimStep_iterate_inv w h st0 l N hone0 hqle0 hspec
      (Or.inr ⟨hnd, hlen⟩) halive).2.2.2
    have hmem : l.getD 0 (0, 0) ∈ l := getD_mem_of_lt l 0 (0, 0) (by omega)
    have hge2 := cycle_two_le_exits _ l hnd hlen hfin _ hmem
    exact ⟨(l.getD 0 (0, 0)).1, (l.getD 0 (0, 0)).2, by omega⟩
  · rintro ⟨x, y, hnz⟩
    have hspecF := (elimStep_iterate_inv w h st0 [] N hone0 hqle0 hspec (Or.inl rfl)
      (fun i hi => absurd hi (by simp))).2.2.1
    have hrectF : Rectangular ((elimStep w h)^[N] st0).1 w h := hdecN.rect w h hrect
    have hsymF : SymAdj ((elimStep w h)^[N] st0).1 w h :=
      elimStep_iterate_symadj w h st0 N hsym
    have hbcF : BoundaryClosed ((elimStep w h)^[N] st0).1 w h :=
      hdecN.boundary w h hbc
    have hcyc := stuck_has_cycle _ w h hrectF hsymF hbcF hspecF hno1 x y hnz
    exact HasCycle_mono _ m hdecN hcyc

/-! ### Relating the verbose loop state to the plain one -/

theorem elimStepV_proj (w h : Nat) (v : Int) (m : Maze) (q : List (Nat × Nat))
    (c : List Nat) :
    (elimStepV w h v (m, q, c)).1 = (elimStep w h (m, q)).1 ∧
    (elimStepV w h v (m, q, c)).2.1 = (elimStep w h (m, q)).2 := by
  unfold elimStepV elimStep
  by_cases hq : q = []
  · simp only [hq, if_pos rfl]
    exact ⟨rfl, rfl⟩
  · rw [if_neg hq, if_neg hq]
    exact ⟨rfl, rfl⟩

theorem elimStepV_iterate_proj (w h : Nat) (v : Int) :
    ∀ (n : Nat) (m : Maze) (q : List (Nat × Nat)) (c : List Nat),
    ((elimStepV w h v)^[n] (m, q, c)).1 = ((elimStep w h)^[n] (m, q)).1 ∧
    ((elimStepV w h v)^[n] (m, q, c)).2.1 = ((elimStep w h)^[n] (m, q)).2 := by
  intro n
  induction n with
  | zero => intro m q c; exact ⟨rfl, rfl⟩
  | succ k ih =>
    intro m q c
    rw [Function.iterate_succ_apply, Function.iterate_succ_apply]
    obtain ⟨h1, h2⟩ := elimStepV_proj w h v m q c
    have hsplit : elimStepV w h v (m, q, c) =
        ((elimStepV w h v (m, q, c)).1, (elimStepV w h v (m, q, c)).2.1,
          (elimStepV w h v (m, q, c)).2.2) := rfl
    rw [hsplit, h1, h2]
    have hsplit2 : elimStep w h (m, q) =
        ((elimStep w h (m, q)).1, (elimStep w h (m, q)).2) := rfl
    rw [hsplit2]
    exact ih _ _ _

/-- With a non-`1` verboseness, `cut_dead_ends` on a non-empty maze returns
the fixed point of the guarded loop. -/
theorem cut_dead_ends_eq_ok (m : Maze) (hm : m ≠ []) (v : Int) (hv : ¬v = 1) :
    cut_dead_ends m v = Except.ok
      (((elimStep ((m.getD 0 []).length) m.length)^[totalExits m + 1]
        (m, initialDeadEnds ((m.getD 0 []).length) m.length m)).1) := by
  cases m with
  | nil => exact absurd rfl hm
  | cons r t =>
    show (if v = 1 ∧ _ then _ else _) = _
    rw [if_neg (fun hc => hv hc.1)]
    exact congrArg Except.ok
      (elimStepV_iterate_proj ((r :: t).getD 0 []).length (r :: t).length v
        (totalExits (r :: t) + 1) (r :: t) _ []).1

theorem elimStepV_counts_grow (w h : Nat) (st : Maze × List (Nat × Nat) × List Nat)
    (hc : st.2.2 ≠ []) : (elimStepV w h 1 st).2.2 ≠ [] := by
  unfold elimStepV
  by_cases hq : st.2.1 = []
  · rw [if_pos hq]
    exact hc
  · rw [if_neg hq]
    simp only [if_pos rfl]
    intro hcc
    exact hc (List.append_eq_nil.1 hcc).1

theorem elimStepV_iterate_counts (w h : Nat) (n : Nat)
    (st : Maze × List (Nat × Nat) × List Nat) (hc : st.2.2 ≠ []) :
    ((elimStepV w h 1)^[n] st).2.2 ≠ [] := by
  induction n generalizing st with
  | zero => exact hc
  | succ k ih =>
    rw [Function.iterate_succ_apply]
    exact ih _ (elimStepV_counts_grow w h st hc)

theorem elimStepV_first_counts (w h : Nat) (m : Maze) (q : List (Nat × Nat))
    (hq : q ≠ []) : (elimStepV w h 1 (m, q, ([] : List Nat))).2.2 ≠ [] := by
  unfold elimStepV
  rw [if_neg hq]
  simp only [if_pos rfl]
  intro hcc
  have := (List.append_eq_nil.1 hcc).2
  exact absurd this (by simp)

/-! ### Characterizing the builder's nested mutation loops -/

theorem rowLength_setCell (m : Maze) (a b : Nat) (c : Cell) (y : Nat) :
    ((setCell m a b c).getD y []).length = (m.getD y []).length := by
  show (((m.set b _).getD y [])).length = _
  by_cases hby : b = y
  · subst hby
    by_cases hbl : b < m.length
    · rw [getD_set_self]
      simp [hbl]
    · rw [getD_set_self]
      simp only [hbl, if_false]
      rw [getD_oob m b [] (by omega)]
  · rw [getD_set_ne _ b y _ _ hby]

theorem rect_setCell (m : Maze) (W H a b : Nat) (c : Cell)
    (hrect : Rectangular m W H) : Rectangular (setCell m a b c) W H := by
  constructor
  · show (m.set b _).length = H
    rw [List.length_set]
    exact hrect.1
  · intro y hy
    rw [rowLength_setCell]
    exact hrect.2 y hy

theorem getD_replicate_self {α : Type _} (n i : Nat) (a d : α) :
    (List.replicate n a).getD i d = if i < n then a else d := by
  induction n generalizing i with
  | zero => simp [List.replicate]
  | succ k ih =>
    cases i with
    | zero => simp [List.replicate]
    | succ j =>
      simp only [List.replicate, List.getD_cons_succ, ih j]
      by_cases hj : j < k
      · rw [if_pos hj, if_pos (by omega)]
      · rw [if_neg hj, if_neg (by omega)]

theorem rect_replicate (W H : Nat) (c : Cell) :
    Rectangular (List.replicate H (List.replicate W c)) W H := by
  constructor
  · exact List.length_replicate H _
  · intro y hy
    rw [getD_replicate_self, if_pos hy, List.length_replicate]

theorem getCell_replicate (W H : Nat) (c : Cell) (x y : Nat) (hx : x < W) (hy : y < H) :
    getCell (List.replicate H (List.replicate W c)) x y = c := by
  unfold getCell
  rw [getD_replicate_self, if_pos hy, getD_replicate_self, if_pos hx]

/-- Characterization of the inner (row) loop of the builder: it rewrites
exactly the cells `(i, j)` for `j < n`, each from its previous value. -/
theorem foldl_setCell_inner (F : Nat → Nat → Cell → Cell) (W H : Nat) :
    ∀ (n : Nat) (maze : Maze) (i : Nat), n ≤ H → i < W → Rectangular maze W H →
    Rectangular ((List.range n).foldl
      (fun mz j => setCell mz i j (F i j (getCell mz i j))) maze) W H ∧
    (∀ x y, getCell ((List.range n).foldl
        (fun mz j => setCell mz i j (F i j (getCell mz i j))) maze) x y =
      if x = i ∧ y < n then F i y (getCell maze i y) else getCell maze x y) := by
  intro n
  induction n with
  | zero =>
    intro maze i _ _ hrect
    refine ⟨hrect, ?_⟩
    intro x y
    rw [if_neg (fun hc => by omega)]
    rfl
  | succ k ih =>
    intro maze i hn hi hrect
    obtain ⟨ihrect, ihchar⟩ := ih maze i (by omega) hi hrect
    rw [List.range_succ, List.foldl_append]
    set M1 := (List.range k).foldl
      (fun mz j => setCell mz i j (F i j (getCell mz i j))) maze with hM1
    simp only [List.foldl_cons, List.foldl_nil]
    have hM1k : getCell M1 i k = getCell maze i k := by
      rw [ihchar i k, if_neg (fun hc => by omega)]
    constructor
    · exact rect_setCell M1 W H i k _ ihrect
    · intro x y
      rw [getCell_setCell]
      by_cases hxy : i = x ∧ k = y
      · obtain ⟨hx1, hy1⟩ := hxy
        subst hx1
        subst hy1
        rw [if_pos ⟨rfl, rfl, by rw [ihrect.1]; omega,
          by rw [ihrect.2 k (by omega)]; omega⟩, if_pos ⟨rfl, by omega⟩, hM1k]
      · rw [if_neg (fun hc => hxy ⟨hc.1, hc.2.1⟩), ihchar x y]
        by_cases hxy2 : x = i ∧ y < k
        · rw [if_pos hxy2, if_pos ⟨hxy2.1, by omega⟩]
        · rw [if_neg hxy2, if_neg (fun hc => by
            rcases hc with ⟨hc1, hc2⟩
            rcases Nat.lt_succ_iff_lt_or_eq.1 hc2 with hc3 | hc3
            · exact hxy2 ⟨hc1, hc3⟩
            · exact hxy ⟨hc1.symm, hc3.symm⟩)]

/-- Characterization of the builder's double loop: starting from a
rectangular grid, each in-range cell is rewritten once from its initial
value, in place. -/
theorem foldl_setCell_outer (F : Nat → Nat → Cell → Cell) (W H : Nat) :
    ∀ (wn : Nat) (maze : Maze), wn ≤ W → Rectangular maze W H →
    Rectangular ((List.range wn).foldl (fun mz i => (List.range H).foldl
      (fun mz2 j => setCell mz2 i j (F i j (getCell mz2 i j))) mz) maze) W H ∧
    (∀ x y, getCell ((List.range wn).foldl (fun mz i => (List.range H).foldl
        (fun mz2 j => setCell mz2 i j (F i j (getCell mz2 i j))) mz) maze) x y =
      if x < wn ∧ y < H then F x y (getCell maze x y) else getCell maze x y) := by
  intro wn
  induction wn with
  | zero =>
    intro maze _ hrect
    refine ⟨hrect, ?_⟩
    intro x y
    rw [if_neg (fun hc => by omega)]
    rfl
  | succ k ih =>
    intro maze hw hrect
    obtain ⟨ihrect, ihchar⟩ := ih maze (by omega) hrect
    rw [List.range_succ, List.foldl_append]
    simp only [List.foldl_cons, List.foldl_nil]
    obtain ⟨irect, ichar⟩ := foldl_setCell_inner F W H H _ k le_rfl (by omega) ihrect
    constructor
    · exact irect
    · intro x y
      rw [ichar x y]
      by_cases hxy : x = k ∧ y < H
      · rw [if_pos hxy, ihchar k y, if_neg (fun hc => by omega),
          if_pos ⟨by omega, hxy.2⟩, hxy.1]
      · rw [if_neg hxy, ihchar x y]
        by_cases hxy2 : x < k ∧ y < H
        · rw [if_pos hxy2, if_pos ⟨by omega, hxy2.2⟩]
        · rw [if_neg hxy2, if_neg (fun hc => by
            rcases hc with ⟨hc1, hc2⟩
            rcases Nat.lt_succ_iff_lt_or_eq.1 hc1 with hc3 | hc3
            · exact hxy2 ⟨hc3, hc2⟩
            · exact hxy ⟨hc3, hc2⟩)]

/-- The grid built from an image: dimensions `(len wall_rows - 1) ×
(len wall_cols - 1)`, and each cell is the sample of its four border
midpoints and its center applied to a fresh all-open cell. -/
theorem build_maze_char (img : Img) :
    Rectangular (build_maze_from_image img)
      ((find_walls img).2.length - 1) ((find_walls img).1.length - 1) ∧
    ∀ i j, i < (find_walls img).2.length - 1 → j < (find_walls img).1.length - 1 →
      getCell (build_maze_from_image img) i j =
        sampleCell img ((find_walls img).2.getD i 0) ((find_walls img).2.getD (i + 1) 0)
          ((find_walls img).1.getD j 0) ((find_walls img).1.getD (j + 1) 0) {} := by
  have hchar := foldl_setCell_outer
    (fun i j c => sampleCell img ((find_walls img).2.getD i 0)
      ((find_walls img).2.getD (i + 1) 0) ((find_walls img).1.getD j 0)
      ((find_walls img).1.getD (j + 1) 0) c)
    ((find_walls img).2.length - 1) ((find_walls img).1.length - 1)
    ((find_walls img).2.length - 1)
    (List.replicate ((find_walls img).1.length - 1)
      (List.replicate ((find_walls img).2.length - 1) {}))
    le_rfl (rect_replicate _ _ _)
  constructor
  · exact hchar.1
  · intro i j hi hj
    have h3 := hchar.2 i j
    rw [if_pos ⟨hi, hj⟩, getCell_replicate _ _ _ i j hi hj] at h3
    exact h3

theorem sampleCell_up (img : Img) (x xn y yn : Nat) (c : Cell) :
    (sampleCell img x xn y yn c).up =
      if img.getpixel ((x + xn) / 2) y = black then false else c.up := rfl

theorem sampleCell_down (img : Img) (x xn y yn : Nat) (c : Cell) :
    (sampleCell img x xn y yn c).down =
      if img.getpixel ((x + xn) / 2) yn = black then false else c.down := rfl

theorem sampleCell_left (img : Img) (x xn y yn : Nat) (c : Cell) :
    (sampleCell img x xn y yn c).left =
      if img.getpixel x ((y + yn) / 2) = black then false else c.left := rfl

theorem sampleCell_right (img : Img) (x xn y yn : Nat) (c : Cell) :
    (sampleCell img x xn y yn c).right =
      if img.getpixel xn ((y + yn) / 2) = black then false else c.right := rfl

theorem sampleCell_special (img : Img) (x xn y yn : Nat) (c : Cell) :
    (sampleCell img x xn y yn c).special =
      if img.getpixel ((x + xn) / 2) ((y + yn) / 2) ∉ [black, white] then true
      else c.special := rfl

/-- The two cells on either side of a shared border sample the same border
midpoint pixel, so the constructed maze is adjacency-symmetric. -/
theorem build_symadj (img : Img) :
    SymAdj (build_maze_from_image img)
      ((find_walls img).2.length - 1) ((find_walls img).1.length - 1) := by
  obtain ⟨hrect, hchar⟩ := build_maze_char img
  intro x hx y hy
  constructor
  · intro hy1
    rw [hchar x y hx (by omega), hchar x (y + 1) hx hy1,
      sampleCell_down, sampleCell_up]
  · intro hx1
    rw [hchar x y hx (by omega), hchar (x + 1) y hx1 (by omega),
      sampleCell_right, sampleCell_left]

/-! ### Counting black pixels: slices versus coordinates -/

theorem length_filter_map_comp {α β : Type _} (f : α → β) (p : β → Bool) (l : List α) :
    ((l.map f).filter p).length = (l.filter (fun a => p (f a))).length := by
  induction l with
  | nil => rfl
  | cons a t ih =>
    simp only [List.map, List.filter]
    cases hp : p (f a) <;> simp [ih]

theorem slice_filter_black (data : List RGB) (s : Nat) :
    ∀ (w : Nat), s + w ≤ data.length →
    (((data.drop s).take w).filter (fun pix => pix = black)).length =
    ((List.range w).filter (fun x => data.getD (s + x) white = black)).length := by
  intro w
  induction w with
  | zero => intro _; rfl
  | succ k ih =>
    intro hsw
    have hlt : s + k < data.length := by omega
    have hget : (data.drop s)[k]? = some (data.getD (s + k) white) := by
      rw [List.getElem?_drop, List.getElem?_eq_getElem hlt,
        getD_eq_get data (s + k) white hlt, List.get_eq_getElem]
    rw [List.take_succ, hget, List.range_succ, List.filter_append, List.filter_append,
      List.length_append, List.length_append, ih (by omega)]
    simp only [Option.toList_some, List.filter, List.filter_nil]
    cases hb : (decide (data.getD (s + k) white = black)) <;> simp [hb]

theorem blacksPerLine_eq (img : Img) (hdata : img.data.length = img.width * img.height)
    (i : Nat) (hi : i < img.height) : blacksPerLine img i = rowBlackCount img i := by
  unfold blacksPerLine rowBlackCount
  have hbound : i * img.width + img.width ≤ img.data.length := by
    rw [hdata]
    calc i * img.width + img.width = (i + 1) * img.width := by ring
    _ ≤ img.height * img.width := Nat.mul_le_mul_right img.width (by omega)
    _ = img.width * img.height := Nat.mul_comm _ _
  rw [slice_filter_black img.data (i * img.width) img.width hbound]
  rfl

theorem blacksPerCol_eq (img : Img) (i : Nat) :
    blacksPerCol img i = colBlackCount img i := by
  unfold blacksPerCol colBlackCount
  rw [length_filter_map_comp]
  congr 1
  refine List.filter_congr ?_
  intro j _
  show decide (img.data.getD (i + j * img.width) white = black) =
    decide (img.getpixel i j = black)
  rw [Img.getpixel, Nat.add_comm]

/-! ### The two small grids used to bound claim C3 -/

theorem mOne_rect : Rectangular mOne 1 1 := by
  refine ⟨rfl, fun y hy => ?_⟩
  interval_cases y
  rfl

theorem mTwo_rect : Rectangular mTwo 2 2 := by
  refine ⟨rfl, fun y hy => ?_⟩
  interval_cases y <;> rfl

theorem mOne_no_conn (p q : Nat × Nat) : ¬ Connected mOne p q := by
  intro hc
  obtain ⟨⟨hp1, hp2⟩, hq1, hq2⟩ := Connected_in_grid mOne 1 1 mOne_rect p q hc
  obtain ⟨px, py⟩ := p
  obtain ⟨qx, qy⟩ := q
  have hpx : px < 1 := hp1
  have hpy : py < 1 := hp2
  have hqx : qx < 1 := hq1
  have hqy : qy < 1 := hq2
  interval_cases px
  interval_cases py
  interval_cases qx
  interval_cases qy
  revert hc
  unfold Connected
  decide

theorem mOne_nocycle : ¬ HasCycle mOne := by
  rintro ⟨l, _, hlen, hedges⟩
  exact mOne_no_conn _ _ (hedges 0 (by omega))

theorem mTwo_conn (p q : Nat × Nat) : Connected mTwo p q ↔
    (p = ((0 : Nat), (0 : Nat)) ∧ q = ((0 : Nat), (1 : Nat))) ∨
    (p = ((0 : Nat), (1 : Nat)) ∧ q = ((0 : Nat), (0 : Nat))) ∨
    (p = ((0 : Nat), (1 : Nat)) ∧ q = ((1 : Nat), (1 : Nat))) ∨
    (p = ((1 : Nat), (1 : Nat)) ∧ q = ((0 : Nat), (1 : Nat))) := by
  constructor
  · intro hc
    obtain ⟨⟨hp1, hp2⟩, hq1, hq2⟩ := Connected_in_grid mTwo 2 2 mTwo_rect p q hc
    obtain ⟨px, py⟩ := p
    obtain ⟨qx, qy⟩ := q
    have hpx : px < 2 := hp1
    have hpy : py < 2 := hp2
    have hqx : qx < 2 := hq1
    have hqy : qy < 2 := hq2
    interval_cases px <;> interval_cases py <;> interval_cases qx <;>
      interval_cases qy <;> (revert hc; unfold Connected; decide)
  · rintro (⟨hp, hq⟩ | ⟨hp, hq⟩ | ⟨hp, hq⟩ | ⟨hp, hq⟩) <;> subst hp <;> subst hq <;>
      (unfold Connected; decide)

theorem mTwo_nocycle : ¬ HasCycle mTwo := by
  rintro ⟨l, hnd, hlen, hedges⟩
  have h0 : 0 < l.length := by omega
  have h1 : 1 < l.length := by omega
  have h2 : 2 < l.length := by omega
  have e0 := hedges 0 h0
  have e1 := hedges 1 h1
  have e2 := hedges 2 h2
  rw [Nat.mod_eq_of_lt h1] at e0
  rw [Nat.mod_eq_of_lt h2] at e1
  have hne02 : l.getD 0 (0, 0) ≠ l.getD 2 (0, 0) := fun he =>
    absurd (nodup_getD_inj l hnd 0 2 (0, 0) h0 h2 he) (by omega)
  rw [mTwo_conn] at e0 e1
  rcases e0 with ⟨ha, hb⟩ | ⟨ha, hb⟩ | ⟨ha, hb⟩ | ⟨ha, hb⟩ <;>
    rcases e1 with ⟨hc, hd⟩ | ⟨hc, hd⟩ | ⟨hc, hd⟩ | ⟨hc, hd⟩ <;>
      (try (rw [hb] at hc; exact absurd hc (by decide))) <;>
      (try (exact hne02 (ha.trans hd.symm)))
  · rw [hd] at e2
    rw [mTwo_conn] at e2
    rcases e2 with ⟨hx, hy⟩ | ⟨hx, hy⟩ | ⟨hx, hy⟩ | ⟨hx, hy⟩
    · exact absurd hx (by decide)
    · exact absurd hx (by decide)
    · exact absurd hx (by decide)
    · by_cases hL : l.length = 3
      · rw [hL] at hy
        rw [Nat.mod_self] at hy
        rw [ha] at hy
        exact absurd hy (by decide)
      · rw [Nat.mod_eq_of_lt (by omega)] at hy
        have h3 : 3 < l.length := by omega
        have := nodup_getD_inj l hnd 3 1 (0, 0) h3 h1 (by rw [hy, hb])
        omega
  · rw [hd] at e2
    rw [mTwo_conn] at e2
    rcases e2 with ⟨hx, hy⟩ | ⟨hx, hy⟩ | ⟨hx, hy⟩ | ⟨hx, hy⟩
    · by_cases hL : l.length = 3
      · rw [hL] at hy
        rw [Nat.mod_self] at hy
        rw [ha] at hy
        exact absurd hy (by decide)
      · rw [Nat.mod_eq_of_lt (by omega)] at hy
        have h3 : 3 < l.length := by omega
        have := nodup_getD_inj l hnd 3 1 (0, 0) h3 h1 (by rw [hy, hb])
        omega
    · exact absurd hx (by decide)
    · exact absurd hx (by decide)
    · exact absurd hx (by decide)

/-! ### Claim theorems -/

/-- C4: across any run of the dead-end eliminator, every directional flag
only ever transitions from true to false (never back, hence at most once),
and the total exit count over the grid is non-increasing from each round to
the next. -/
theorem claim_C4 (w h : Nat) (st : Maze × List (Nat × Nat)) (n k : Nat) (hnk : n ≤ k) :
    (∀ x y d, (getCell ((elimStep w h)^[k] st).1 x y).flag d = true →
      (getCell ((elimStep w h)^[n] st).1 x y).flag d = true) ∧
    totalExits ((elimStep w h)^[n + 1] st).1 ≤ totalExits ((elimStep w h)^[n] st).1 := by
  constructor
  · exact (elimStep_iterate_chain w h st n k hnk).1
  · exact (elimStep_iterate_chain w h st n (n + 1) (by omega)).2.2.2.2

theorem claim_C4_witness :
    (∀ x y d, (getCell ((elimStep 1 1)^[2]
        (([[⟨true, false, false, false, false⟩]] : Maze), [((0, 0) : Nat × Nat)])).1 x y).flag d
          = true →
      (getCell ((elimStep 1 1)^[1]
        (([[⟨true, false, false, false, false⟩]] : Maze), [((0, 0) : Nat × Nat)])).1 x y).flag d
          = true) ∧
    totalExits ((elimStep 1 1)^[1 + 1]
      (([[⟨true, false, false, false, false⟩]] : Maze), [((0, 0) : Nat × Nat)])).1 ≤
    totalExits ((elimStep 1 1)^[1]
      (([[⟨true, false, false, false, false⟩]] : Maze), [((0, 0) : Nat × Nat)])).1 :=
  claim_C4 1 1 _ 1 2 (by decide)

/-- C6: on any maze grid, the dead-end elimination loop of `cut_dead_ends`
terminates: after finitely many guarded rounds the queue of dead ends is
empty (at most `totalExits maze + 1` rounds suffice). -/
theorem claim_C6 (maze : Maze) :
    ∃ n : Nat, ((elimStep (maze.getD 0 []).length maze.length)^[n]
      (maze, initialDeadEnds (maze.getD 0 []).length maze.length maze)).2 = [] :=
  ⟨totalExits maze + 1,
    elim_terminates (maze.getD 0 []).length maze.length (totalExits maze) _ le_rfl⟩

/-- C9 counterexample: the eliminator does read the `special` flag.  Two
mazes that agree on every directional flag and differ only in one cell's
`special` flag produce different directional results: with `special` off
the single-exit cell is pruned, with it on the cell has two exits and
survives untouched. -/
theorem claim_C9_counterexample :
    cut_dead_ends [[⟨true, false, false, false, false⟩]] 0 =
      Except.ok [[⟨false, false, false, false, false⟩]] ∧
    cut_dead_ends [[⟨true, false, false, false, true⟩]] 0 =
      Except.ok [[⟨true, false, false, false, true⟩]] := by
  exact ⟨rfl, rfl⟩

/-- C9 amended: the dead-end eliminator never writes any cell's `special`
flag — after a complete run every cell's `special` flag equals its value
before the run, so special cells remain marked across the first solver pass
(the eliminator does, however, read the flags through the exit count). -/
theorem claim_C9 (maze m' : Maze) (hm : cut_dead_ends maze 0 = Except.ok m') :
    ∀ x y, (getCell m' x y).special = (getCell maze x y).special := by
  cases maze with
  | nil => exact absurd hm (by simp [cut_dead_ends])
  | cons r t =>
    rw [cut_dead_ends_eq_ok (r :: t) (by simp) 0 (by decide)] at hm
    injection hm with hinj
    subst hinj
    intro x y
    exact (elimStep_iterate_decreasing _ _ _ _).2.1 x y

theorem claim_C9_witness :
    (getCell [[⟨false, false, false, false, false⟩]] 0 0).special =
      (getCell [[⟨true, false, false, false, false⟩]] 0 0).special :=
  claim_C9 _ _ (by rfl) 0 0

/-- C10: whenever some cell of the scanned grid has exit count exactly one,
`cut_dead_ends` with verboseness 1 records the per-round dead-end counts as
integers and finally hands them to a string join, raising `TypeError` after
the elimination loop finishes. -/
theorem claim_C10 (maze : Maze) (i j : Nat) (hi : i < (maze.getD 0 []).length)
    (hj : j < maze.length) (hex : (getCell maze i j).exits = 1) :
    cut_dead_ends maze 1 = Except.error PyError.typeError := by
  cases maze with
  | nil => simp at hj
  | cons r t =>
    have hq0 : initialDeadEnds ((r :: t).getD 0 []).length (r :: t).length (r :: t) ≠ [] := by
      intro hc
      have hmem : (i, j) ∈ initialDeadEnds ((r :: t).getD 0 []).length
          (r :: t).length (r :: t) :=
        (initialDeadEnds_mem _ _ _ (i, j)).2 ⟨hi, hj, hex⟩
      rw [hc] at hmem
      exact List.not_mem_nil _ hmem
    show (if (1 : Int) = 1 ∧ _ then _ else _) = _
    rw [if_pos]
    refine ⟨rfl, ?_⟩
    rw [Function.iterate_succ_apply]
    exact elimStepV_iterate_counts _ _ (totalExits (r :: t)) _
      (elimStepV_first_counts _ _ (r :: t) _ hq0)

theorem claim_C10_witness :
    0 < (([[⟨true, false, false, false, false⟩]] : Maze).getD 0 []).length ∧
    0 < ([[⟨true, false, false, false, false⟩]] : Maze).length ∧
    (getCell [[⟨true, false, false, false, false⟩]] 0 0).exits = 1 ∧
    cut_dead_ends [[⟨true, false, false, false, false⟩]] 1 =
      Except.error PyError.typeError :=
  ⟨by decide, by decide, by decide,
    claim_C10 _ 0 0 (by decide) (by decide) (by decide)⟩

/-- C2: no malformed-input error is signalled when fewer than two wall
lines are found.  With two wall rows but no wall column, construction
silently returns a degenerate grid of empty rows and the eliminator
completes normally; with no wall rows at all, construction returns the
empty grid and the eliminator later fails with an `IndexError` from
`maze[0]` — not a descriptive construction-time signal. -/
theorem claim_C2 :
    (find_walls (Img.mk 3 7 (List.replicate 3 black ++ List.replicate 15 white ++
      List.replicate 3 black))).1.length = 2 ∧
    (find_walls (Img.mk 3 7 (List.replicate 3 black ++ List.replicate 15 white ++
      List.replicate 3 black))).2.length = 0 ∧
    build_maze_from_image (Img.mk 3 7 (List.replicate 3 black ++
      List.replicate 15 white ++ List.replicate 3 black)) = [[]] ∧
    cut_dead_ends (build_maze_from_image (Img.mk 3 7 (List.replicate 3 black ++
      List.replicate 15 white ++ List.replicate 3 black))) 0 = Except.ok [[]] ∧
    (find_walls (Img.mk 1 1 [white])).1.length = 0 ∧
    cut_dead_ends (build_maze_from_image (Img.mk 1 1 [white])) 0 =
      Except.error PyError.indexError := by
  exact ⟨rfl, rfl, rfl, rfl, rfl, rfl⟩

/-- C1: the cycle test of `main` reads only the last row (the comprehension
iterates the leaked loop variable `line`, bound to the last row, in its
first clause).  On a reachable fixed point of the second elimination pass
whose surviving cycle lies in the first two rows, some cell has nonzero
exit count, yet the check returns false. -/
theorem claim_C1 :
    mainCycleCheck
      [[⟨false, true, false, true, false⟩, ⟨false, true, true, false, false⟩],
       [⟨true, false, false, true, false⟩, ⟨true, false, true, false, false⟩],
       [⟨false, false, false, false, false⟩, ⟨false, false, false, false, false⟩]]
      = some false ∧
    ([[⟨false, true, false, true, false⟩, ⟨false, true, true, false, false⟩],
       [⟨true, false, false, true, false⟩, ⟨true, false, true, false, false⟩],
       [⟨false, false, false, false, false⟩, ⟨false, false, false, false, false⟩]] :
      Maze).any (fun row => row.any (fun c => c.exits != 0)) = true ∧
    cut_dead_ends
      [[⟨false, true, false, true, false⟩, ⟨false, true, true, false, false⟩],
       [⟨true, false, false, true, false⟩, ⟨true, false, true, false, false⟩],
       [⟨false, false, false, false, false⟩, ⟨false, false, false, false, false⟩]] 0
      = Except.ok
      [[⟨false, true, false, true, false⟩, ⟨false, true, true, false, false⟩],
       [⟨true, false, false, true, false⟩, ⟨true, false, true, false, false⟩],
       [⟨false, false, false, false, false⟩, ⟨false, false, false, false, false⟩]] := by
  exact ⟨rfl, rfl, rfl⟩

/-- C7: `find_walls` returns exactly the strictly increasing list of row
indices whose pure-black pixel count exceeds a third of the width, and the
strictly increasing list of column indices whose count exceeds a third of
the height (the source compares against the float `width/3.0`, which on
these integers coincides with `3 * count > width`). -/
theorem claim_C7 (img : Img) (hdata : img.data.length = img.width * img.height) :
    List.Pairwise (· < ·) (find_walls img).1 ∧
    List.Pairwise (· < ·) (find_walls img).2 ∧
    (∀ i, i ∈ (find_walls img).1 ↔
      i < img.height ∧ img.width < 3 * rowBlackCount img i) ∧
    (∀ i, i ∈ (find_walls img).2 ↔
      i < img.width ∧ img.height < 3 * colBlackCount img i) := by
  refine ⟨?_, ?_, ?_, ?_⟩
  · exact (List.pairwise_lt_range img.height).sublist (List.filter_sublist _)
  · exact (List.pairwise_lt_range img.width).sublist (List.filter_sublist _)
  · intro i
    show i ∈ (List.range img.height).filter _ ↔ _
    rw [List.mem_filter, List.mem_range]
    constructor
    · rintro ⟨hi, hcount⟩
      rw [← blacksPerLine_eq img hdata i hi]
      exact ⟨hi, by simpa using hcount⟩
    · rintro ⟨hi, hcount⟩
      rw [← blacksPerLine_eq img hdata i hi] at hcount
      exact ⟨hi, by simpa using hcount⟩
  · intro i
    show i ∈ (List.range img.width).filter _ ↔ _
    rw [List.mem_filter, List.mem_range]
    rw [← blacksPerCol_eq img i]
    constructor
    · rintro ⟨hi, hcount⟩
      exact ⟨hi, by simpa using hcount⟩
    · rintro ⟨hi, hcount⟩
      exact ⟨hi, by simpa using hcount⟩

theorem claim_C7_witness :
    (List.Pairwise (· < ·) (find_walls (Img.mk 3 7 (List.replicate 3 black ++
      List.replicate 15 white ++ List.replicate 3 black))).1 ∧
    List.Pairwise (· < ·) (find_walls (Img.mk 3 7 (List.replicate 3 black ++
      List.replicate 15 white ++ List.replicate 3 black))).2 ∧
    (∀ i, i ∈ (find_walls (Img.mk 3 7 (List.replicate 3 black ++
        List.replicate 15 white ++ List.replicate 3 black))).1 ↔
      i < 7 ∧ 3 < 3 * rowBlackCount (Img.mk 3 7 (List.replicate 3 black ++
        List.replicate 15 white ++ List.replicate 3 black)) i) ∧
    (∀ i, i ∈ (find_walls (Img.mk 3 7 (List.replicate 3 black ++
        List.replicate 15 white ++ List.replicate 3 black))).2 ↔
      i < 3 ∧ 7 < 3 * colBlackCount (Img.mk 3 7 (List.replicate 3 black ++
        List.replicate 15 white ++ List.replicate 3 black)) i)) :=
  claim_C7 (Img.mk 3 7 (List.replicate 3 black ++ List.replicate 15 white ++
    List.replicate 3 black)) (by rfl)

/-- C8: the builder returns a grid of `(len wall_rows - 1)` rows by
`(len wall_cols - 1)` columns; each directional flag is false exactly when
the midpoint pixel of the corresponding border is pure black, and the
special flag is true exactly when the center pixel is neither pure black
nor pure white. -/
theorem claim_C8 (img : Img) :
    (build_maze_from_image img).length = (find_walls img).1.length - 1 ∧
    (∀ row ∈ build_maze_from_image img, row.length = (find_walls img).2.length - 1) ∧
    (∀ i j, i < (find_walls img).2.length - 1 → j < (find_walls img).1.length - 1 →
      ((getCell (build_maze_from_image img) i j).up = false ↔
        img.getpixel (((find_walls img).2.getD i 0 + (find_walls img).2.getD (i + 1) 0) / 2)
          ((find_walls img).1.getD j 0) = black) ∧
      ((getCell (build_maze_from_image img) i j).down = false ↔
        img.getpixel (((find_walls img).2.getD i 0 + (find_walls img).2.getD (i + 1) 0) / 2)
          ((find_walls img).1.getD (j + 1) 0) = black) ∧
      ((getCell (build_maze_from_image img) i j).left = false ↔
        img.getpixel ((find_walls img).2.getD i 0)
          (((find_walls img).1.getD j 0 + (find_walls img).1.getD (j + 1) 0) / 2) = black) ∧
      ((getCell (build_maze_from_image img) i j).right = false ↔
        img.getpixel ((find_walls img).2.getD (i + 1) 0)
          (((find_walls img).1.getD j 0 + (find_walls img).1.getD (j + 1) 0) / 2) = black) ∧
      ((getCell (build_maze_from_image img) i j).special = true ↔
        img.getpixel (((find_walls img).2.getD i 0 + (find_walls img).2.getD (i + 1) 0) / 2)
          (((find_walls img).1.getD j 0 + (find_walls img).1.getD (j + 1) 0) / 2)
          ∉ [black, white])) := by
  obtain ⟨hrect, hchar⟩ := build_maze_char img
  refine ⟨hrect.1, ?_, ?_⟩
  · intro row hrow
    obtain ⟨⟨y, hy⟩, rfl⟩ := List.mem_iff_get.1 hrow
    have hylt : y < (find_walls img).1.length - 1 := by
      rw [← hrect.1]
      exact hy
    have := hrect.2 y hylt
    rw [getD_eq_get _ y [] hy] at this
    exact this
  · intro i j hi hj
    rw [hchar i j hi hj, sampleCell_up, sampleCell_down, sampleCell_left,
      sampleCell_right, sampleCell_special]
    refine ⟨?_, ?_, ?_, ?_, ?_⟩ <;> split_ifs with hc <;>
      first
        | exact iff_of_true rfl hc
        | exact iff_of_false (by decide) hc
        | exact iff_of_false (by decide) (fun hn => hn hc)

theorem claim_C8_witness :
    (build_maze_from_image (Img.mk 1 1 [white])).length =
      (find_walls (Img.mk 1 1 [white])).1.length - 1 ∧
    (∀ row ∈ build_maze_from_image (Img.mk 1 1 [white]),
      row.length = (find_walls (Img.mk 1 1 [white])).2.length - 1) ∧
    (∀ i j, i < (find_walls (Img.mk 1 1 [white])).2.length - 1 →
      j < (find_walls (Img.mk 1 1 [white])).1.length - 1 →
      ((getCell (build_maze_from_image (Img.mk 1 1 [white])) i j).up = false ↔
        (Img.mk 1 1 [white]).getpixel
          (((find_walls (Img.mk 1 1 [white])).2.getD i 0 +
            (find_walls (Img.mk 1 1 [white])).2.getD (i + 1) 0) / 2)
          ((find_walls (Img.mk 1 1 [white])).1.getD j 0) = black) ∧
      ((getCell (build_maze_from_image (Img.mk 1 1 [white])) i j).down = false ↔
        (Img.mk 1 1 [white]).getpixel
          (((find_walls (Img.mk 1 1 [white])).2.getD i 0 +
            (find_walls (Img.mk 1 1 [white])).2.getD (i + 1) 0) / 2)
          ((find_walls (Img.mk 1 1 [white])).1.getD (j + 1) 0) = black) ∧
      ((getCell (build_maze_from_image (Img.mk 1 1 [white])) i j).left = false ↔
        (Img.mk 1 1 [white]).getpixel ((find_walls (Img.mk 1 1 [white])).2.getD i 0)
          (((find_walls (Img.mk 1 1 [white])).1.getD j 0 +
            (find_walls (Img.mk 1 1 [white])).1.getD (j + 1) 0) / 2) = black) ∧
      ((getCell (build_maze_from_image (Img.mk 1 1 [white])) i j).right = false ↔
        (Img.mk 1 1 [white]).getpixel ((find_walls (Img.mk 1 1 [white])).2.getD (i + 1) 0)
          (((find_walls (Img.mk 1 1 [white])).1.getD j 0 +
            (find_walls (Img.mk 1 1 [white])).1.getD (j + 1) 0) / 2) = black) ∧
      ((getCell (build_maze_from_image (Img.mk 1 1 [white])) i j).special = true ↔
        (Img.mk 1 1 [white]).getpixel
          (((find_walls (Img.mk 1 1 [white])).2.getD i 0 +
            (find_walls (Img.mk 1 1 [white])).2.getD (i + 1) 0) / 2)
          (((find_walls (Img.mk 1 1 [white])).1.getD j 0 +
            (find_walls (Img.mk 1 1 [white])).1.getD (j + 1) 0) / 2)
          ∉ [black, white])) :=
  claim_C8 (Img.mk 1 1 [white])

/-- C5: for every pair of grid-adjacent cells, the two mirrored flags of
their shared border agree, both on the grid as constructed from the image
(the two cells sample the same border midpoint pixel) and after any number
of rounds of the dead-end eliminator (which always clears the two mirrored
flags of an in-grid border together). -/
theorem claim_C5 :
    (∀ img : Img, SymAdj (build_maze_from_image img)
      ((find_walls img).2.length - 1) ((find_walls img).1.length - 1)) ∧
    (∀ (w h : Nat) (st : Maze × List (Nat × Nat)) (n : Nat), SymAdj st.1 w h →
      SymAdj ((elimStep w h)^[n] st).1 w h) :=
  ⟨build_symadj, fun w h st n hs => elimStep_iterate_symadj w h st n hs⟩

theorem claim_C5_witness :
    SymAdj (build_maze_from_image (Img.mk 1 1 [white]))
      ((find_walls (Img.mk 1 1 [white])).2.length - 1)
      ((find_walls (Img.mk 1 1 [white])).1.length - 1) ∧
    SymAdj ((elimStep 1 1)^[1]
      (([[⟨true, false, false, false, false⟩]] : Maze), [((0, 0) : Nat × Nat)])).1 1 1 :=
  ⟨claim_C5.1 (Img.mk 1 1 [white]),
    claim_C5.2 1 1 (([[⟨true, false, false, false, false⟩]] : Maze),
      [((0, 0) : Nat × Nat)]) 1
      (fun _ _ _ _ => ⟨fun hcon => absurd hcon (by omega),
        fun hcon => absurd hcon (by omega)⟩)⟩

/-- C3 counterexample: the claim quantifies over every maze grid with
special flags false, but it fails outside the grids the builder actually
produces. `mOne` (acyclic, boundary-open) and `mTwo` (acyclic, asymmetric
but rectangular and boundary-closed) are fixed points of the eliminator
that keep cells with nonzero exits, so "all exits zero iff acyclic" is
false for both. -/
theorem claim_C3_counterexample :
    (SpecialsOff mOne 1 1 ∧ Rectangular mOne 1 1 ∧
      cut_dead_ends mOne 0 = Except.ok mOne ∧ ¬ HasCycle mOne ∧
      ¬ (∀ x y, (getCell mOne x y).exits = 0)) ∧
    (SpecialsOff mTwo 2 2 ∧ Rectangular mTwo 2 2 ∧ BoundaryClosed mTwo 2 2 ∧
      cut_dead_ends mTwo 0 = Except.ok mTwo ∧ ¬ HasCycle mTwo ∧
      ¬ (∀ x y, (getCell mTwo x y).exits = 0)) := by
  refine ⟨⟨?_, mOne_rect, rfl, mOne_nocycle, ?_⟩,
    ⟨?_, mTwo_rect, ?_, rfl, mTwo_nocycle, ?_⟩⟩
  · intro x hx y hy
    interval_cases x
    interval_cases y
    rfl
  · intro hall
    exact absurd (hall 0 0) (by decide)
  · intro x hx y hy
    interval_cases x <;> interval_cases y <;> rfl
  · intro x hx y hy
    interval_cases x <;> interval_cases y <;>
      refine ⟨fun hcon => ?_, fun hcon => ?_, fun hcon => ?_, fun hcon => ?_⟩ <;>
        first
          | rfl
          | exact absurd hcon (by omega)
  · intro hall
    exact absurd (hall 0 0) (by decide)

/-- C3 (amended): for a nonempty rectangular grid with mutually consistent
adjacent flags, closed outer boundary, and all special flags false, the
dead-end eliminator succeeds and leaves every cell with exit count zero iff
the maze's connection graph is acyclic; moreover no surviving cell is left
with exactly one exit. -/
theorem claim_C3 (m : Maze) (w h : Nat) (hh : 0 < h)
    (hrect : Rectangular m w h) (hsym : SymAdj m w h) (hbc : BoundaryClosed m w h)
    (hspec : SpecialsOff m w h) (m' : Maze) (hm : cut_dead_ends m 0 = Except.ok m') :
    ((∀ x y, (getCell m' x y).exits = 0) ↔ ¬ HasCycle m) ∧
    (∀ x y, (getCell m' x y).exits ≠ 1) := by
  have hmnil : m ≠ [] := by
    intro hnil
    have h0 : m.length = h := hrect.1
    rw [hnil] at h0
    simp at h0
    omega
  have hok := cut_dead_ends_eq_ok m hmnil 0 (by decide)
  rw [hm] at hok
  injection hok with hok
  have hw : (m.getD 0 []).length = w := hrect.2 0 hh
  have hhh : m.length = h := hrect.1
  rw [hw, hhh] at hok
  subst hok
  have hspec2 := specials_unbounded m w h hrect hspec
  obtain ⟨hno1, hcyc1, hcyc2⟩ := elimination_master m w h hrect hsym hbc hspec2
  refine ⟨⟨?_, ?_⟩, hno1⟩
  · intro hall hcy
    obtain ⟨x, y, hxy⟩ := hcyc1 hcy
    exact hxy (hall x y)
  · intro hnc x y
    by_contra hne
    exact hnc (hcyc2 ⟨x, y, hne⟩)

theorem claim_C3_witness :
    ((∀ x y, (getCell [[⟨false, false, false, false, false⟩]] x y).exits = 0) ↔
      ¬ HasCycle [[⟨false, false, false, false, false⟩]]) ∧
    (∀ x y, (getCell [[⟨false, false, false, false, false⟩]] x y).exits ≠ 1) :=
  claim_C3 [[⟨false, false, false, false, false⟩]] 1 1 (by decide)
    ⟨rfl, fun y hy => by interval_cases y; rfl⟩
    (fun x hx y hy => ⟨fun hcon => absurd hcon (by omega),
      fun hcon => absurd hcon (by omega)⟩)
    (fun x hx y hy => by
      interval_cases x
      interval_cases y
      exact ⟨fun _ => rfl, fun _ => rfl, fun _ => rfl, fun _ => rfl⟩)
    (fun x hx y hy => by
      interval_cases x
      interval_cases y
      rfl)
    [[⟨false, false, false, false, false⟩]] rfl

end MazeSolver
